import Mathlib

/-!
Verification of the interval-experiments repository: a shallow embedding of
`src/interval.rs`, `src/aggregate.rs`, `src/index.rs` and `src/baseline.rs`
into Lean, followed by theorems about the embedded definitions.

Conventions of the embedding:
* `u64` timestamps and `usize` indices become `Nat`; `u64` subtraction
  (only used as `end - start` under the documented `start <= end`
  precondition) becomes truncated `Nat` subtraction.
* `Vec` becomes `List`; Rust slicing `&v[a..]` and `&v[a..b]`, which panic
  when the bounds are invalid, become the `Option`-valued `sliceFrom` and
  `slice` below, with `none` marking the panic.  The query path is therefore
  `Option`-valued; `push` never slices.
* The `while` loop of `query_with` is modelled by a fuel-indexed recursion;
  the fuel `length + 1` is sufficient whenever every lane width is at least
  one, because each iteration strictly increases the position.
* The `Aggregate` trait becomes a record of operations `AggregateOps`;
  `a.aggregate(&other)`, which merges `other` into `a` in place, becomes
  the pure `ops.aggregate a other`.
-/

namespace IntervalExperiments

/-- `Interval` of `interval.rs`; the Rust field `end` is spelled `end_`
(`end` is a Lean keyword), and `Timestamp` (`pub type Timestamp = u64`)
is `Nat`. -/
structure Interval where
  start : Nat
  end_ : Nat
deriving DecidableEq, Repr

/-- `Interval::overlaps`: `self.start <= other.end && self.end >= other.start`. -/
def Interval.overlaps (a : Interval) (other : Interval) : Bool :=
  decide (a.start ≤ other.end_) && decide (a.end_ ≥ other.start)

/-- `Interval::contains`: `self.start <= other.start && other.end <= self.end`. -/
def Interval.contains (a : Interval) (other : Interval) : Bool :=
  decide (a.start ≤ other.start) && decide (other.end_ ≤ a.end_)

/-- The `Aggregate` trait of `aggregate.rs` as a record of operations.
The `weight` method is defined only for forward compatibility in the source
and is never called by the index, so it is not modelled. -/
structure AggregateOps (V A : Type) where
  empty : A
  initial : Interval → V → A
  aggregate : A → A → A

/-- `DefaultStatistics` of `aggregate.rs` (the `PhantomData` marker is
dropped, so the type is not parameterized). -/
structure DefaultStatistics where
  min : Nat
  max : Nat
  total_duration : Nat
  count : Nat
deriving DecidableEq, Repr

/-- `DefaultStatistics::empty`. -/
def DefaultStatistics.empty : DefaultStatistics :=
  { min := 0, max := 0, total_duration := 0, count := 0 }

/-- `DefaultStatistics::initial`: `duration = interval.end - interval.start`. -/
def DefaultStatistics.initial (interval : Interval) : DefaultStatistics :=
  let duration := interval.end_ - interval.start
  { min := duration, max := duration, total_duration := duration, count := 1 }

/-- `DefaultStatistics::aggregate`, merging `other` into `self`:
`self.min = other.min.min(self.min)`, `self.max = other.max.max(self.max)`,
`self.count += other.count`, `self.total_duration += other.total_duration`. -/
def DefaultStatistics.aggregate (self other : DefaultStatistics) : DefaultStatistics :=
  { min := Nat.min other.min self.min
    max := Nat.max other.max self.max
    total_duration := self.total_duration + other.total_duration
    count := self.count + other.count }

/-- The `impl Aggregate for DefaultStatistics` instance, for any value type. -/
def defaultStatisticsOps (V : Type) : AggregateOps V DefaultStatistics :=
  { empty := DefaultStatistics.empty
    initial := fun interval _ => DefaultStatistics.initial interval
    aggregate := DefaultStatistics.aggregate }

/-- `FastLane` of `index.rs`: a block width `interval` and two parallel
vectors, one entry per block (the `PhantomData<V>` marker is dropped). -/
structure FastLane (A : Type) where
  interval : Nat
  intervals : List Interval
  aggregations : List A

/-- `SlowLane` of `index.rs`: two parallel vectors in insertion order. -/
structure SlowLane (V : Type) where
  intervals : List Interval
  values : List V

/-- `IntervalIndex` of `index.rs`. -/
structure IntervalIndex (V A : Type) where
  order : Nat
  max_top_level : Nat
  fast_lanes : List (FastLane A)
  slow_lane : SlowLane V

/-- `FastLane::len`. -/
def FastLane.len (l : FastLane A) : Nat :=
  l.intervals.length

/-- `FastLane::push`: append a new block. -/
def FastLane.push (l : FastLane A) (interval : Interval) (aggregate : A) : FastLane A :=
  { l with intervals := l.intervals ++ [interval], aggregations := l.aggregations ++ [aggregate] }

/-- `FastLane::update`: extend block `index`'s bounding end to
`other.end.max(interval.end)` and merge `aggregate` into its summary.
(The Rust indexing `self.intervals[index]` is total here via `List.modify`,
which leaves the list unchanged when `index` is out of bounds; every call
site of `update` is in bounds, see the parallel-length invariants below.) -/
def FastLane.update (ops : AggregateOps V A) (l : FastLane A) (index : Nat)
    (interval : Interval) (aggregate : A) : FastLane A :=
  { l with
    intervals := List.modify (fun other => { other with end_ := Nat.max other.end_ interval.end_ }) index l.intervals
    aggregations := List.modify (fun a => ops.aggregate a aggregate) index l.aggregations }

/-- `SlowLane::len`. -/
def SlowLane.len (l : SlowLane V) : Nat :=
  l.intervals.length

/-- `SlowLane::push`. -/
def SlowLane.push (l : SlowLane V) (interval : Interval) (value : V) : SlowLane V :=
  { l with intervals := l.intervals ++ [interval], values := l.values ++ [value] }

/-- `IntervalIndex::new(order)`: `max_top_level = 4096 / size_of::<Interval>()`,
and `size_of::<Interval>() = 16` (two `u64` fields), so `max_top_level = 256`.
One fast lane of block width `order` is allocated (capacities are dropped). -/
def IntervalIndex.new (V A : Type) (order : Nat) : IntervalIndex V A :=
  { order := order
    max_top_level := 256
    fast_lanes := [{ interval := order, intervals := [], aggregations := [] }]
    slow_lane := { intervals := [], values := [] } }

/-- `IntervalIndex::rebuild_top_level`: compress the coarsest lane into a new
lane of width `order^(fast_lanes.len() + 1)` and insert it at the front.
The Rust access `self.fast_lanes[0]` is modelled by a match; the lanes list
is never empty (one lane is created by `new` and lanes are only added). -/
def IntervalIndex.rebuild_top_level (ops : AggregateOps V A) (idx : IntervalIndex V A) :
    IntervalIndex V A :=
  match idx.fast_lanes with
  | [] => idx
  | top :: _ =>
    let interval := idx.order ^ (idx.fast_lanes.length + 1)
    let items := top.intervals.zip top.aggregations
    let fast_lane := items.enum.foldl
      (fun (fl : FastLane A) (p : Nat × (Interval × A)) =>
        let copy := ops.aggregate ops.empty p.2.2
        if p.1 % idx.order == 0 then fl.push p.2.1 copy
        else fl.update ops (p.1 / idx.order) p.2.1 copy)
      { interval := interval, intervals := [], aggregations := [] }
    { idx with fast_lanes := fast_lane :: idx.fast_lanes }

/-- `IntervalIndex::push`: feed the element to every fast lane (new block at
multiples of the lane width, otherwise update block `index / width`), append
to the slow lane, then rebuild the top level once it holds `max_top_level`
blocks. -/
def IntervalIndex.push (ops : AggregateOps V A) (idx : IntervalIndex V A)
    (interval : Interval) (value : V) : IntervalIndex V A :=
  let index := idx.slow_lane.len
  let lanes := idx.fast_lanes.map (fun lane =>
    let aggregate := ops.initial interval value
    if index % lane.interval == 0 then lane.push interval aggregate
    else lane.update ops (index / lane.interval) interval aggregate)
  let idx1 : IntervalIndex V A :=
    { idx with fast_lanes := lanes, slow_lane := idx.slow_lane.push interval value }
  match idx1.fast_lanes with
  | [] => idx1
  | top :: _ => if top.len == idx1.max_top_level then idx1.rebuild_top_level ops else idx1

/-- Rust slicing `&v[a..]`: panics (modelled as `none`) when `a > v.len()`. -/
def sliceFrom (l : List α) (a : Nat) : Option (List α) :=
  if a ≤ l.length then some (l.drop a) else none

/-- Rust slicing `&v[a..b]`: panics (modelled as `none`) when `a > b` or
`b > v.len()`. -/
def slice (l : List α) (a b : Nat) : Option (List α) :=
  if a ≤ b ∧ b ≤ l.length then some ((l.drop a).take (b - a)) else none

/-- `IntervalIndex::first_fastlane_overlap`: walk the lanes coarsest first;
in each lane scan `&lane.intervals[offset..]` counting blocks until one
overlaps the window, then rescale the offset by `order`.  `List.findIdx`
returns the length of the slice when no block overlaps, exactly like the
Rust loop that falls through. -/
def IntervalIndex.first_fastlane_overlap (idx : IntervalIndex V A) (w : Interval) : Option Nat :=
  idx.fast_lanes.foldlM
    (fun offset lane =>
      match sliceFrom lane.intervals offset with
      | none => none
      | some s => some ((offset + s.findIdx (fun interval => interval.overlaps w)) * idx.order))
    0

/-- `IntervalIndex::first_overlap`: linear scan of
`&slow_lane.intervals[index..]` for the first overlapping interval,
returning `index` itself when none overlaps. -/
def IntervalIndex.first_overlap (idx : IntervalIndex V A) (w : Interval) : Option Nat :=
  match idx.first_fastlane_overlap w with
  | none => none
  | some index =>
    match sliceFrom idx.slow_lane.intervals index with
    | none => none
    | some s =>
      let j := s.findIdx (fun interval => interval.overlaps w)
      if j < s.length then some (index + j) else some index

/-- The `QueryVisitor` trait of `index.rs`, as a record of two callbacks
threading a state of type `σ`. -/
structure QueryVisitor (V A σ : Type) where
  visit_fast_lane : σ → FastLane A → Nat → σ
  visit_slow_lane : σ → SlowLane V → Nat → σ

/-- The lane selection of `query_with` step 1: the first (coarsest) lane
whose block containing `index` has its bounding interval fully contained in
the window (`lane.intervals.get(index / lane.interval)` is the safe `get`). -/
def findSkipLane (w : Interval) (index : Nat) : List (FastLane A) → Option (FastLane A)
  | [] => none
  | lane :: rest =>
    match lane.intervals[index / lane.interval]? with
    | some interval => if w.contains interval then some lane else findSkipLane w index rest
    | none => findSkipLane w index rest

/-- The element-by-element scan of `query_with` step 2 over one slice:
positions are `index + i`; returns the new state and whether the scan hit
`interval.start > window.end` and broke out of the whole search. -/
def slowScan (w : Interval) (q : QueryVisitor V A σ) (slow : SlowLane V) (index : Nat) :
    List Interval → Nat → σ → σ × Bool
  | [], _, st => (st, false)
  | interval :: rest, i, st =>
    if interval.start > w.end_ then (st, true)
    else
      slowScan w q slow index rest (i + 1)
        (if interval.overlaps w then q.visit_slow_lane st slow (index + i) else st)

/-- The `'search` loop of `IntervalIndex::query_with`, fuel-indexed. -/
def queryLoop (idx : IntervalIndex V A) (w : Interval) (q : QueryVisitor V A σ) :
    Nat → Nat → σ → Option σ
  | 0, _, _ => none
  | fuel + 1, index, st =>
    let length := idx.slow_lane.intervals.length
    if index < length then
      match findSkipLane w index idx.fast_lanes with
      | some lane => queryLoop idx w q fuel (index + lane.interval) (q.visit_fast_lane st lane index)
      | none =>
        let iterations := idx.order - index % idx.order
        let start := Nat.min index (length - 1)
        let stop := Nat.min (index + iterations) length
        match slice idx.slow_lane.intervals start stop with
        | none => none
        | some intervals =>
          let res := slowScan w q idx.slow_lane index intervals 0 st
          if res.2 then some res.1 else queryLoop idx w q fuel stop res.1
    else
      some st

/-- `IntervalIndex::query_with`. -/
def IntervalIndex.query_with (idx : IntervalIndex V A) (w : Interval)
    (q : QueryVisitor V A σ) (st : σ) : Option σ :=
  match idx.first_overlap w with
  | none => none
  | some index => queryLoop idx w q (idx.slow_lane.intervals.length + 1) index st

/-- `AggregateVisitor` of `index.rs`.  The Rust panicking indexations
`lane.aggregations[lane_index]`, `lane.intervals[index]`, `lane.values[index]`
are modelled by safe lookups that leave the output unchanged when out of
bounds; each call site is in bounds (`visit_fast_lane` is only invoked right
after `lane.intervals.get(lane_index)` succeeded, and `visit_slow_lane` only
at positions below the slow-lane length). -/
def aggregateVisitor (ops : AggregateOps V A) : QueryVisitor V A A :=
  { visit_fast_lane := fun output lane index =>
      match lane.aggregations[index / lane.interval]? with
      | some a => ops.aggregate output a
      | none => output
    visit_slow_lane := fun output lane index =>
      match lane.intervals[index]?, lane.values[index]? with
      | some interval, some value => ops.aggregate output (ops.initial interval value)
      | _, _ => output }

/-- `IntervalIndex::aggregate`. -/
def IntervalIndex.aggregate (ops : AggregateOps V A) (idx : IntervalIndex V A)
    (w : Interval) : Option A :=
  idx.query_with w (aggregateVisitor ops) ops.empty

/-- The state of `RangeVisitor`; `output` keeps the collected ranges
`(start, end)` in reverse order (most recently added first), so the Rust
`output.last_mut()` is the head here and `query` reverses at the end. -/
structure RVState where
  count : Nat
  output : List (Nat × Nat)
deriving DecidableEq, Repr

/-- Range coalescing shared by both `RangeVisitor` callbacks: merge into the
previous range when `prev.end == start`, otherwise start a new range. -/
def rvAdd : List (Nat × Nat) → Nat → Nat → List (Nat × Nat)
  | [], start, stop => [(start, stop)]
  | prev :: rest, start, stop =>
    if prev.2 == start then (prev.1, stop) :: rest else (start, stop) :: prev :: rest

/-- `RangeVisitor` of `index.rs`; its `slow_lane` reference is represented by
the slow-lane length, the only thing it reads. -/
def rangeVisitor (V A : Type) (slowLen : Nat) : QueryVisitor V A RVState :=
  { visit_fast_lane := fun st lane index =>
      let stop := Nat.min (index + lane.interval) slowLen
      { count := st.count + (stop - index), output := rvAdd st.output index stop }
    visit_slow_lane := fun st _ index =>
      { count := st.count + 1, output := rvAdd st.output index (index + 1) } }

/-- The index ranges accumulated by `IntervalIndex::query`, in insertion
order. -/
def IntervalIndex.queryRanges (idx : IntervalIndex V A) (w : Interval) :
    Option (List (Nat × Nat)) :=
  match idx.query_with w (rangeVisitor V A idx.slow_lane.len) { count := 0, output := [] } with
  | none => none
  | some st => some st.output.reverse

/-- `IntervalIndex::query`, with each `&slow_lane.values[range]` slice
materialized (`none` again marks a Rust panic, either in the traversal or in
the slicing). -/
def IntervalIndex.queryValues (idx : IntervalIndex V A) (w : Interval) :
    Option (List (List V)) :=
  match idx.queryRanges w with
  | none => none
  | some ranges => ranges.mapM (fun r => slice idx.slow_lane.values r.1 r.2)

/-- `BaselineIntervalIndex` of `baseline.rs` (the oracle). -/
structure BaselineIntervalIndex (V A : Type) where
  intervals : List Interval
  values : List V

/-- `BaselineIntervalIndex::new`. -/
def BaselineIntervalIndex.new (V A : Type) : BaselineIntervalIndex V A :=
  { intervals := [], values := [] }

/-- `BaselineIntervalIndex::push`. -/
def BaselineIntervalIndex.push (b : BaselineIntervalIndex V A) (interval : Interval)
    (value : V) : BaselineIntervalIndex V A :=
  { b with intervals := b.intervals ++ [interval], values := b.values ++ [value] }

/-- The loop of `BaselineIntervalIndex::query`: push the value when the
interval overlaps, then break when `interval.start > window.end`. -/
def baselineQueryGo (w : Interval) : List (Interval × V) → List V
  | [] => []
  | (interval, value) :: rest =>
    let out := if interval.overlaps w then [value] else []
    if interval.start > w.end_ then out else out ++ baselineQueryGo w rest

/-- `BaselineIntervalIndex::query`. -/
def BaselineIntervalIndex.query (b : BaselineIntervalIndex V A) (w : Interval) : List V :=
  baselineQueryGo w (b.intervals.zip b.values)

/-- The loop of `BaselineIntervalIndex::aggregate`: break when
`interval.start > window.end`, else merge when the interval overlaps. -/
def baselineAggregateGo (ops : AggregateOps V A) (w : Interval) :
    List (Interval × V) → A → A
  | [], out => out
  | (interval, value) :: rest, out =>
    if interval.start > w.end_ then out
    else
      baselineAggregateGo ops w rest
        (if interval.overlaps w then ops.aggregate out (ops.initial interval value) else out)

/-- `BaselineIntervalIndex::aggregate`. -/
def BaselineIntervalIndex.aggregate (ops : AggregateOps V A)
    (b : BaselineIntervalIndex V A) (w : Interval) : A :=
  baselineAggregateGo ops w (b.intervals.zip b.values) ops.empty

/-- Build an index from a list of pushes, in order. -/
def IntervalIndex.build (ops : AggregateOps V A) (order : Nat)
    (items : List (Interval × V)) : IntervalIndex V A :=
  items.foldl (fun idx p => idx.push ops p.1 p.2) (IntervalIndex.new V A order)

/-- Build the oracle from the same list of pushes. -/
def BaselineIntervalIndex.build (items : List (Interval × V)) : BaselineIntervalIndex V A :=
  items.foldl (fun b p => b.push p.1 p.2) (BaselineIntervalIndex.new V A)

/-- The documented insertion-order precondition: starts are non-decreasing. -/
abbrev StartSorted (l : List Interval) : Prop :=
  l.Pairwise (fun a b => a.start ≤ b.start)

/-! ### Basic bridges from the `Bool` predicates to propositions -/

theorem overlaps_iff {a b : Interval} :
    a.overlaps b = true ↔ a.start ≤ b.end_ ∧ b.start ≤ a.end_ := by
  simp [Interval.overlaps]

theorem contains_iff {a b : Interval} :
    a.contains b = true ↔ a.start ≤ b.start ∧ b.end_ ≤ a.end_ := by
  simp [Interval.contains]

theorem overlaps_eq_false_iff {a b : Interval} :
    a.overlaps b = false ↔ b.end_ < a.start ∨ a.end_ < b.start := by
  simp only [Interval.overlaps, Bool.and_eq_false_iff, decide_eq_false_iff_not]
  omega

/-! ### Blocks of the slow lane: `numBlocks`, `chunk`, `maxEnd`, `blocksSpec`

`blocksSpec l W` is the closed form of a fast lane's bounding intervals over
a slow lane `l` with block width `W`: block `k` covers the positions
`[k*W, min ((k+1)*W) l.length)`, its start is frozen to the start of the
first element of the block and its end is the running maximum of the ends. -/

/-- Number of blocks a lane of width `W` holds over `n` elements:
`ceil (n / W)`. -/
def numBlocks (n W : Nat) : Nat :=
  (n + W - 1) / W

/-- The slow-lane elements covered by block `k` of a lane of width `W`. -/
def chunk (l : List Interval) (k W : Nat) : List Interval :=
  (l.drop (k * W)).take W

/-- Start of the first element of a block (0 for an empty block, which never
occurs for an existing block). -/
def headStart : List Interval → Nat
  | [] => 0
  | interval :: _ => interval.start

/-- Maximum of the ends of a list of intervals (0 for the empty list). -/
def maxEnd (l : List Interval) : Nat :=
  l.foldl (fun a interval => Nat.max a interval.end_) 0

/-- The bounding interval of a block. -/
def blockOf (c : List Interval) : Interval :=
  { start := headStart c, end_ := maxEnd c }

/-- Closed form for a fast lane's bounding intervals. -/
def blocksSpec (l : List Interval) (W : Nat) : List Interval :=
  (List.range (numBlocks l.length W)).map (fun k => blockOf (chunk l k W))

theorem lt_numBlocks_iff {W : Nat} (hW : 1 ≤ W) {k n : Nat} :
    k < numBlocks n W ↔ k * W < n := by
  unfold numBlocks
  have h1 : (k + 1) * W = k * W + W := by ring
  constructor
  · intro h
    have h2 : (k + 1) * W ≤ n + W - 1 := (Nat.le_div_iff_mul_le hW).mp h
    omega
  · intro h
    have h2 : (k + 1) * W ≤ n + W - 1 := by omega
    exact (Nat.le_div_iff_mul_le hW).mpr h2

theorem numBlocks_append_dvd {n W : Nat} (hW : 1 ≤ W) (h : n % W = 0) :
    numBlocks (n + 1) W = numBlocks n W + 1 := by
  obtain ⟨q, rfl⟩ : ∃ q, n = q * W :=
    ⟨n / W, (Nat.div_mul_cancel (Nat.dvd_of_mod_eq_zero h)).symm⟩
  have e1 : (q + 1) * W = q * W + W := by ring
  have e2 : (q + 1 + 1) * W = q * W + 2 * W := by ring
  have h1 : numBlocks (q * W) W = q := by
    unfold numBlocks
    exact Nat.div_eq_of_lt_le (by omega) (by omega)
  have h2 : numBlocks (q * W + 1) W = q + 1 := by
    unfold numBlocks
    exact Nat.div_eq_of_lt_le (by omega) (by omega)
  omega

theorem numBlocks_append_ndvd {n W : Nat} (hW : 1 ≤ W) (h : n % W ≠ 0) :
    numBlocks (n + 1) W = numBlocks n W := by
  have hq := Nat.div_add_mod n W
  have hr : n % W < W := Nat.mod_lt _ hW
  have e0 : W * (n / W) = n / W * W := by ring
  have e1 : (n / W + 1) * W = n / W * W + W := by ring
  have e2 : (n / W + 1 + 1) * W = n / W * W + 2 * W := by ring
  have h1 : numBlocks n W = n / W + 1 := by
    unfold numBlocks
    exact Nat.div_eq_of_lt_le (by omega) (by omega)
  have h2 : numBlocks (n + 1) W = n / W + 1 := by
    unfold numBlocks
    exact Nat.div_eq_of_lt_le (by omega) (by omega)
  omega

theorem block_index_cases {W n k : Nat} (hW : 1 ≤ W) (hk : k * W < n + 1) :
    (k + 1) * W ≤ n ∨ k = n / W := by
  by_cases h : (k + 1) * W ≤ n
  · exact Or.inl h
  · refine Or.inr (Eq.symm (Nat.div_eq_of_lt_le (by omega) (by omega)))

theorem div_index_lt_of_ndvd {W n : Nat} (hW : 1 ≤ W) (h : n % W ≠ 0) :
    n / W * W < n := by
  have h1 := Nat.div_add_mod n W
  have h2 : W * (n / W) = n / W * W := Nat.mul_comm _ _
  have h3 : n % W < W := Nat.mod_lt _ hW
  omega

theorem getElem?_chunk {l : List Interval} {k W t : Nat} :
    (chunk l k W)[t]? = if t < W then l[k * W + t]? else none := by
  simp [chunk, List.getElem?_take, List.getElem?_drop]

theorem length_chunk {l : List Interval} {k W : Nat} :
    (chunk l k W).length = min W (l.length - k * W) := by
  simp [chunk]

theorem chunk_ne_nil {l : List Interval} {k W : Nat} (hW : 1 ≤ W)
    (hk : k * W < l.length) : chunk l k W ≠ [] := by
  have h : (chunk l k W).length ≠ 0 := by rw [length_chunk]; omega
  exact fun hnil => h (by rw [hnil]; rfl)

theorem chunk_append_unchanged {l : List Interval} {x : Interval} {k W : Nat}
    (h : (k + 1) * W ≤ l.length) :
    chunk (l ++ [x]) k W = chunk l k W := by
  have h1 : (k + 1) * W = k * W + W := by ring
  unfold chunk
  rw [List.drop_append_of_le_length (by omega)]
  rw [List.take_append_of_le_length (by simp; omega)]

theorem chunk_append_new {l : List Interval} {x : Interval} {W : Nat}
    (hW : 1 ≤ W) (h : l.length % W = 0) :
    chunk (l ++ [x]) (l.length / W) W = [x] := by
  have hk : l.length / W * W = l.length := by
    have h1 := Nat.div_add_mod l.length W
    have h2 : W * (l.length / W) = l.length / W * W := Nat.mul_comm _ _
    omega
  unfold chunk
  rw [hk, List.drop_append_of_le_length (le_refl _), List.drop_length]
  cases W with
  | zero => omega
  | succ w => simp

theorem chunk_append_grown {l : List Interval} {x : Interval} {W : Nat}
    (hW : 1 ≤ W) (h : l.length % W ≠ 0) :
    chunk (l ++ [x]) (l.length / W) W = chunk l (l.length / W) W ++ [x] := by
  have hmod := Nat.div_add_mod l.length W
  have hcomm : W * (l.length / W) = l.length / W * W := Nat.mul_comm _ _
  have hr : l.length % W < W := Nat.mod_lt _ hW
  have hk : l.length / W * W ≤ l.length := by omega
  unfold chunk
  rw [List.drop_append_of_le_length hk]
  have hlen : (l.drop (l.length / W * W)).length = l.length % W := by simp; omega
  rw [List.take_of_length_le (by simp [hlen]; omega),
    List.take_of_length_le (by simp [hlen]; omega)]

theorem maxEnd_nil : maxEnd [] = 0 := rfl

theorem foldl_max_le_iff {m : Nat} :
    ∀ (l : List Interval) (a : Nat),
      l.foldl (fun a interval => Nat.max a interval.end_) a ≤ m ↔
        a ≤ m ∧ ∀ interval ∈ l, interval.end_ ≤ m := by
  intro l
  induction l with
  | nil => simp
  | cons x xs ih =>
    intro a
    simp only [List.foldl_cons, ih, List.mem_cons]
    constructor
    · rintro ⟨h1, h2⟩
      rw [Nat.max_le] at h1
      refine ⟨h1.1, ?_⟩
      rintro interval (rfl | hm)
      · exact h1.2
      · exact h2 _ hm
    · rintro ⟨h1, h2⟩
      exact ⟨Nat.max_le.mpr ⟨h1, h2 x (Or.inl rfl)⟩, fun interval hm => h2 _ (Or.inr hm)⟩

theorem maxEnd_le_iff {l : List Interval} {m : Nat} :
    maxEnd l ≤ m ↔ ∀ interval ∈ l, interval.end_ ≤ m := by
  unfold maxEnd
  rw [foldl_max_le_iff]
  simp

theorem le_maxEnd_of_mem {l : List Interval} {interval : Interval}
    (h : interval ∈ l) : interval.end_ ≤ maxEnd l :=
  (maxEnd_le_iff.mp (le_refl _)) interval h

theorem maxEnd_append_singleton {l : List Interval} {x : Interval} :
    maxEnd (l ++ [x]) = Nat.max (maxEnd l) x.end_ := by
  unfold maxEnd
  rw [List.foldl_append]
  rfl

theorem blockOf_singleton {x : Interval} : blockOf [x] = x := by
  unfold blockOf headStart maxEnd
  simp

theorem headStart_append_of_ne_nil {c : List Interval} {x : Interval} (h : c ≠ []) :
    headStart (c ++ [x]) = headStart c := by
  cases c with
  | nil => exact absurd rfl h
  | cons a rest => rfl

theorem length_blocksSpec {l : List Interval} {W : Nat} :
    (blocksSpec l W).length = numBlocks l.length W := by
  simp [blocksSpec]

theorem getElem?_blocksSpec {l : List Interval} {W k : Nat} :
    (blocksSpec l W)[k]? =
      if k < numBlocks l.length W then some (blockOf (chunk l k W)) else none := by
  unfold blocksSpec
  by_cases h : k < numBlocks l.length W
  · rw [List.getElem?_map, List.getElem?_range h, if_pos h]
    rfl
  · rw [if_neg h, List.getElem?_eq_none]
    simp only [List.length_map, List.length_range]
    omega

theorem mem_chunk_iff {l : List Interval} {k W : Nat} {iv : Interval} :
    iv ∈ chunk l k W ↔ ∃ t, t < W ∧ l[k * W + t]? = some iv := by
  rw [List.mem_iff_getElem?]
  constructor
  · rintro ⟨t, ht⟩
    rw [getElem?_chunk] at ht
    by_cases h : t < W
    · exact ⟨t, h, by simpa [h] using ht⟩
    · simp [h] at ht
  · rintro ⟨t, htW, ht⟩
    exact ⟨t, by rw [getElem?_chunk, if_pos htW]; exact ht⟩

theorem headStart_chunk {l : List Interval} {k W : Nat} (hW : 1 ≤ W)
    (hk : k * W < l.length) :
    headStart (chunk l k W) = (l.get ⟨k * W, hk⟩).start := by
  have h0 : (chunk l k W)[0]? = l[k * W]? := by
    have hpos : 0 < W := hW
    rw [getElem?_chunk, if_pos hpos, Nat.add_zero]
  rw [List.getElem?_eq_getElem hk] at h0
  cases hc : chunk l k W with
  | nil => exact absurd hc (chunk_ne_nil hW hk)
  | cons a rest =>
    rw [hc] at h0
    simp only [List.getElem?_cons_zero, Option.some_inj] at h0
    rw [h0]
    rfl

/-- Every element of a block is bounded (on its `start`) below by the frozen
block start, as long as the slow lane is pushed in non-decreasing start
order. -/
theorem headStart_le_of_mem_chunk {l : List Interval} {k W : Nat} {iv : Interval}
    (hsorted : StartSorted l) (hW : 1 ≤ W) (hk : k * W < l.length)
    (hmem : iv ∈ chunk l k W) : headStart (chunk l k W) ≤ iv.start := by
  obtain ⟨t, htW, ht⟩ := mem_chunk_iff.mp hmem
  have hlt : k * W + t < l.length := (List.getElem?_eq_some.mp ht).1
  rw [headStart_chunk hW hk]
  rcases Nat.eq_zero_or_pos t with rfl | htpos
  · have : l[k * W]? = some iv := by simpa using ht
    rw [List.getElem?_eq_getElem hk] at this
    simp only [Option.some_inj] at this
    rw [← this]
    exact le_refl _
  · have hp := List.pairwise_iff_getElem.mp hsorted (k * W) (k * W + t) hk hlt (by omega)
    have : l[k * W + t]? = some iv := ht
    rw [List.getElem?_eq_getElem hlt] at this
    simp only [Option.some_inj] at this
    rw [← this]
    simpa using hp

/-- The `end` of every element of a block is bounded above by the block
bound. -/
theorem end_le_maxEnd_chunk {l : List Interval} {k W : Nat} {iv : Interval}
    (hmem : iv ∈ chunk l k W) : iv.end_ ≤ maxEnd (chunk l k W) :=
  le_maxEnd_of_mem hmem

theorem numBlocks_dvd_eq {n W : Nat} (hW : 1 ≤ W) (h : n % W = 0) :
    numBlocks n W = n / W := by
  obtain ⟨q, rfl⟩ : ∃ q, n = q * W :=
    ⟨n / W, (Nat.div_mul_cancel (Nat.dvd_of_mod_eq_zero h)).symm⟩
  have e1 : (q + 1) * W = q * W + W := by ring
  have h1 : numBlocks (q * W) W = q := by
    unfold numBlocks
    exact Nat.div_eq_of_lt_le (by omega) (by omega)
  rw [h1, Nat.mul_div_cancel _ hW]

/-- Effect of one slow-lane append on the block bounds of a lane of width
`W`: a fresh block when the length is a multiple of `W`, otherwise an
end-update of block `length / W`.  This is exactly the branch of
`FastLane::push` / `FastLane::update` taken by `IntervalIndex::push`. -/
theorem blocksSpec_append {l : List Interval} {x : Interval} {W : Nat} (hW : 1 ≤ W) :
    blocksSpec (l ++ [x]) W =
      if l.length % W = 0 then blocksSpec l W ++ [x]
      else
        List.modify (fun o => { o with end_ := Nat.max o.end_ x.end_ })
          (l.length / W) (blocksSpec l W) := by
  apply List.ext_getElem?
  intro k
  by_cases hmod : l.length % W = 0
  · have hlen1 : (l ++ [x]).length = l.length + 1 := by simp
    rw [if_pos hmod, getElem?_blocksSpec, hlen1, List.getElem?_append, length_blocksSpec]
    have hnum := numBlocks_append_dvd hW hmod
    have hq := numBlocks_dvd_eq hW hmod
    by_cases h1 : k < numBlocks l.length W
    · have hlt : k < numBlocks (l.length + 1) W := by omega
      rw [if_pos hlt, if_pos h1, getElem?_blocksSpec, if_pos h1]
      have hkW : (k + 1) * W ≤ l.length := by
        have h2 : k * W < l.length := (lt_numBlocks_iff hW).mp h1
        have h3 : k + 1 ≤ l.length / W := by
          rw [Nat.le_div_iff_mul_le hW]
          have h4 : k < l.length / W := by omega
          calc (k + 1) * W ≤ (l.length / W) * W := Nat.mul_le_mul_right _ (by omega)
            _ ≤ l.length := Nat.div_mul_le_self _ _
        calc (k + 1) * W ≤ (l.length / W) * W := Nat.mul_le_mul_right _ h3
          _ ≤ l.length := Nat.div_mul_le_self _ _
      rw [chunk_append_unchanged hkW]
    · by_cases h2 : k = numBlocks l.length W
      · subst h2
        have hlt : numBlocks l.length W < numBlocks (l.length + 1) W := by omega
        rw [if_pos hlt, if_neg (lt_irrefl _), Nat.sub_self]
        rw [hq, chunk_append_new hW hmod, blockOf_singleton]
        rfl
      · have hge : numBlocks (l.length + 1) W ≤ k := by omega
        rw [if_neg (by omega), if_neg (by omega), List.getElem?_eq_none (by simp; omega)]
  · have hlen1 : (l ++ [x]).length = l.length + 1 := by simp
    rw [if_neg hmod, getElem?_blocksSpec, hlen1, List.getElem?_modify, getElem?_blocksSpec]
    have hnum := numBlocks_append_ndvd hW hmod
    by_cases h1 : k < numBlocks l.length W
    · rw [if_pos (by omega), if_pos h1]
      have hkW : k * W < l.length := (lt_numBlocks_iff hW).mp h1
      have hbc := block_index_cases hW (show k * W < l.length + 1 by omega)
      rcases hbc with hcase | hcase
      · have hne : l.length / W ≠ k := by
          intro hEq
          subst hEq
          have h3 : (l.length / W + 1) * W = l.length / W * W + W := by ring
          have h4 := Nat.div_add_mod l.length W
          have h5 : W * (l.length / W) = l.length / W * W := Nat.mul_comm _ _
          have h6 : l.length % W < W := Nat.mod_lt _ hW
          omega
        rw [chunk_append_unchanged hcase]
        simp [hne]
      · subst hcase
        have hne : l.length / W = l.length / W := rfl
        rw [chunk_append_grown hW hmod]
        have hc : chunk l (l.length / W) W ≠ [] :=
          chunk_ne_nil hW (div_index_lt_of_ndvd hW hmod)
        simp only [Option.map_eq_map, Option.map_some, if_pos hne]
        unfold blockOf
        rw [headStart_append_of_ne_nil hc, maxEnd_append_singleton]
        simp
    · rw [if_neg (by omega), if_neg h1]
      rfl

theorem numBlocks_compose {n W b : Nat} (hW : 1 ≤ W) (hb : 1 ≤ b) :
    numBlocks (numBlocks n W) b = numBlocks n (b * W) := by
  have hbW : 1 ≤ b * W := Nat.mul_pos hb hW
  have key : ∀ j, (j < numBlocks (numBlocks n W) b ↔ j < numBlocks n (b * W)) := by
    intro j
    rw [lt_numBlocks_iff hb, lt_numBlocks_iff hW, lt_numBlocks_iff hbW, Nat.mul_assoc]
  have h1 := key (numBlocks (numBlocks n W) b)
  have h2 := key (numBlocks n (b * W))
  omega

theorem headStart_chunk_opt {l : List Interval} {k W : Nat} (hW : 1 ≤ W)
    (hk : k * W < l.length) :
    (l[k * W]?).map Interval.start = some (headStart (chunk l k W)) := by
  rw [headStart_chunk hW hk, List.getElem?_eq_getElem hk]
  simp

theorem headStart_chunk_compose {l : List Interval} {W b j : Nat} (hW : 1 ≤ W)
    (hb : 1 ≤ b) (hj : j < numBlocks l.length (b * W)) :
    headStart (chunk (blocksSpec l W) j b) = headStart (chunk l j (b * W)) := by
  have hbW : 1 ≤ b * W := Nat.mul_pos hb hW
  have hjn : j * (b * W) < l.length := (lt_numBlocks_iff hbW).mp hj
  have hassoc : j * b * W = j * (b * W) := Nat.mul_assoc j b W
  have h2 : j * b * W < l.length := by omega
  have hjb : j * b < numBlocks l.length W := (lt_numBlocks_iff hW).mpr h2
  have hjbs : j * b < (blocksSpec l W).length := by rw [length_blocksSpec]; exact hjb
  have hbs : (blocksSpec l W)[j * b]? = some (blockOf (chunk l (j * b) W)) := by
    rw [getElem?_blocksSpec, if_pos hjb]
  apply Option.some_inj.mp
  calc some (headStart (chunk (blocksSpec l W) j b))
      = ((blocksSpec l W)[j * b]?).map Interval.start := (headStart_chunk_opt hb hjbs).symm
    _ = some (headStart (chunk l (j * b) W)) := by rw [hbs]; rfl
    _ = (l[j * b * W]?).map Interval.start := (headStart_chunk_opt hW h2).symm
    _ = (l[j * (b * W)]?).map Interval.start := by rw [hassoc]
    _ = some (headStart (chunk l j (b * W))) := headStart_chunk_opt hbW hjn

theorem maxEnd_chunk_compose {l : List Interval} {W b j : Nat} (hW : 1 ≤ W)
    (hb : 1 ≤ b) (hj : j < numBlocks l.length (b * W)) :
    maxEnd (chunk (blocksSpec l W) j b) = maxEnd (chunk l j (b * W)) := by
  have hWpos : 0 < W := hW
  apply Nat.le_antisymm
  · rw [maxEnd_le_iff]
    intro blk hblk
    obtain ⟨t, htb, ht⟩ := mem_chunk_iff.mp hblk
    have hlt : j * b + t < (blocksSpec l W).length := (List.getElem?_eq_some.mp ht).1
    rw [length_blocksSpec] at hlt
    have hblk2 : blk = blockOf (chunk l (j * b + t) W) := by
      rw [getElem?_blocksSpec, if_pos hlt] at ht
      exact (Option.some_inj.mp ht).symm
    rw [hblk2]
    show maxEnd (chunk l (j * b + t) W) ≤ _
    rw [maxEnd_le_iff]
    intro iv hiv
    obtain ⟨s, hsW, hs⟩ := mem_chunk_iff.mp hiv
    apply le_maxEnd_of_mem
    rw [mem_chunk_iff]
    refine ⟨t * W + s, ?_, ?_⟩
    · have e1 : (t + 1) * W = t * W + W := by ring
      have e2 : (t + 1) * W ≤ b * W := Nat.mul_le_mul_right W (by omega)
      omega
    · have e3 : j * (b * W) + (t * W + s) = (j * b + t) * W + s := by ring
      rw [e3]
      exact hs
  · rw [maxEnd_le_iff]
    intro iv hiv
    obtain ⟨u, hub, hu⟩ := mem_chunk_iff.mp hiv
    have hdm := Nat.div_add_mod u W
    have hcm : W * (u / W) = u / W * W := Nat.mul_comm _ _
    have hdle : u / W * W ≤ u := Nat.div_mul_le_self _ _
    have ht : u / W < b := by
      by_contra hcon
      have hble : b ≤ u / W := by omega
      have := Nat.mul_le_mul_right W hble
      omega
    have hidx : j * (b * W) + u < l.length := (List.getElem?_eq_some.mp hu).1
    have hmem : iv ∈ chunk l (j * b + u / W) W := by
      rw [mem_chunk_iff]
      refine ⟨u % W, Nat.mod_lt _ hWpos, ?_⟩
      have e3 : (j * b + u / W) * W + u % W = j * (b * W) + (u / W * W + u % W) := by ring
      rw [e3, show u / W * W + u % W = u by omega]
      exact hu
    have hnb : j * b + u / W < numBlocks l.length W := by
      rw [lt_numBlocks_iff hW]
      have e3 : (j * b + u / W) * W = j * (b * W) + u / W * W := by ring
      omega
    have hblkmem : blockOf (chunk l (j * b + u / W) W) ∈ chunk (blocksSpec l W) j b := by
      rw [mem_chunk_iff]
      refine ⟨u / W, ht, ?_⟩
      rw [getElem?_blocksSpec, if_pos hnb]
    calc iv.end_ ≤ maxEnd (chunk l (j * b + u / W) W) := le_maxEnd_of_mem hmem
      _ = (blockOf (chunk l (j * b + u / W) W)).end_ := rfl
      _ ≤ maxEnd (chunk (blocksSpec l W) j b) := le_maxEnd_of_mem hblkmem

/-- Grouping the blocks of a width-`W` lane by `b` (what
`rebuild_top_level` does with `b = order`) yields exactly the blocks of a
width-`b*W` lane over the same slow lane. -/
theorem blocksSpec_compose {l : List Interval} {W b : Nat} (hW : 1 ≤ W) (hb : 1 ≤ b) :
    blocksSpec (blocksSpec l W) b = blocksSpec l (b * W) := by
  apply List.ext_getElem?
  intro j
  rw [getElem?_blocksSpec, getElem?_blocksSpec, length_blocksSpec, numBlocks_compose hW hb]
  by_cases hj : j < numBlocks l.length (b * W)
  · rw [if_pos hj, if_pos hj]
    unfold blockOf
    rw [headStart_chunk_compose hW hb hj, maxEnd_chunk_compose hW hb hj]
  · rw [if_neg hj, if_neg hj]

/-! ### From the code to `blocksSpec`: the per-push lane step and the
rebuild fold produce exactly the closed-form blocks -/

theorem blocksSpec_nil {W : Nat} : blocksSpec [] W = [] := by
  have h : numBlocks 0 W = 0 := by
    cases W with
    | zero => rfl
    | succ w =>
      unfold numBlocks
      exact Nat.div_eq_of_lt (by omega)
  unfold blocksSpec
  simp [h]

/-- `FastLane::push` keeps the width field. -/
theorem FastLane.interval_push {l : FastLane A} {iv : Interval} {a : A} :
    (l.push iv a).interval = l.interval := rfl

/-- `FastLane::update` keeps the width field. -/
theorem FastLane.interval_update {ops : AggregateOps V A} {l : FastLane A} {i : Nat}
    {iv : Interval} {a : A} : (l.update ops i iv a).interval = l.interval := rfl

/-- The effect of one element on a lane's bounding intervals, as a function
of the element's absolute index (`boundStep W bs (i, x)` is the intervals
component of `FastLane::push`/`FastLane::update` at index `i`). -/
def boundStep (W : Nat) (bs : List Interval) (p : Nat × Interval) : List Interval :=
  if p.1 % W == 0 then bs ++ [p.2]
  else List.modify (fun o => { o with end_ := Nat.max o.end_ p.2.end_ }) (p.1 / W) bs

theorem pushLane_intervals {lane : FastLane A} {l : List Interval} {iv : Interval} {a : A}
    (ops : AggregateOps V A) (hW : 1 ≤ lane.interval)
    (hlane : lane.intervals = blocksSpec l lane.interval) :
    (if l.length % lane.interval == 0 then lane.push iv a
     else lane.update ops (l.length / lane.interval) iv a).intervals
      = blocksSpec (l ++ [iv]) lane.interval := by
  rw [blocksSpec_append hW]
  by_cases h : l.length % lane.interval = 0
  · simp [h, FastLane.push, hlane]
  · simp [h, FastLane.update, hlane]

/-- Folding `boundStep` over an enumerated slow lane builds the closed-form
blocks. -/
theorem foldl_boundStep_enum {W : Nat} (hW : 1 ≤ W) (ivs : List Interval) :
    ivs.enum.foldl (boundStep W) [] = blocksSpec ivs W := by
  induction ivs using List.reverseRecOn with
  | nil => simp [blocksSpec_nil]
  | append_singleton l x ih =>
    rw [List.enum_append, List.foldl_append, ih]
    show boundStep W (blocksSpec l W) (l.length, x) = _
    rw [blocksSpec_append hW]
    unfold boundStep
    by_cases h : l.length % W = 0
    · simp [h]
    · simp [h]

/-- The intervals component of the `rebuild_top_level` fold is a
`boundStep` fold (the aggregation values are irrelevant to it). -/
theorem foldl_rebuildStep_intervals (ops : AggregateOps V A) {b : Nat} :
    ∀ (L : List (Nat × (Interval × A))) (fl : FastLane A),
      (L.foldl
        (fun (fl : FastLane A) (p : Nat × (Interval × A)) =>
          let copy := ops.aggregate ops.empty p.2.2
          if p.1 % b == 0 then fl.push p.2.1 copy
          else fl.update ops (p.1 / b) p.2.1 copy) fl).intervals
        = (L.map (fun p => (p.1, p.2.1))).foldl (boundStep b) fl.intervals := by
  intro L
  induction L with
  | nil => intro fl; rfl
  | cons p rest ih =>
    intro fl
    rw [List.foldl_cons, List.map_cons, List.foldl_cons, ih]
    congr 1
    unfold boundStep
    by_cases h : p.1 % b == 0
    · simp only [h, if_pos rfl]
      rfl
    · simp only [Bool.not_eq_true] at h
      simp only [h]
      rfl

/-- The `rebuild_top_level` fold keeps the width field. -/
theorem foldl_rebuildStep_interval_field (ops : AggregateOps V A) {b : Nat} :
    ∀ (L : List (Nat × (Interval × A))) (fl : FastLane A),
      (L.foldl
        (fun (fl : FastLane A) (p : Nat × (Interval × A)) =>
          let copy := ops.aggregate ops.empty p.2.2
          if p.1 % b == 0 then fl.push p.2.1 copy
          else fl.update ops (p.1 / b) p.2.1 copy) fl).interval = fl.interval := by
  intro L
  induction L with
  | nil => intro fl; rfl
  | cons p rest ih =>
    intro fl
    rw [List.foldl_cons, ih]
    by_cases h : p.1 % b == 0 <;> simp [h, FastLane.push, FastLane.update]

/-- The `rebuild_top_level` fold keeps the two block vectors parallel. -/
theorem foldl_rebuildStep_parallel (ops : AggregateOps V A) {b : Nat} :
    ∀ (L : List (Nat × (Interval × A))) (fl : FastLane A),
      fl.aggregations.length = fl.intervals.length →
      (L.foldl
        (fun (fl : FastLane A) (p : Nat × (Interval × A)) =>
          let copy := ops.aggregate ops.empty p.2.2
          if p.1 % b == 0 then fl.push p.2.1 copy
          else fl.update ops (p.1 / b) p.2.1 copy) fl).aggregations.length =
      (L.foldl
        (fun (fl : FastLane A) (p : Nat × (Interval × A)) =>
          let copy := ops.aggregate ops.empty p.2.2
          if p.1 % b == 0 then fl.push p.2.1 copy
          else fl.update ops (p.1 / b) p.2.1 copy) fl).intervals.length := by
  intro L
  induction L with
  | nil => intro fl h; exact h
  | cons p rest ih =>
    intro fl h
    rw [List.foldl_cons]
    apply ih
    by_cases hc : p.1 % b == 0 <;> simp [hc, FastLane.push, FastLane.update, h]

theorem enumFrom_zip_map_fst {α β : Type _} :
    ∀ (a : List α) (b : List β) (n : Nat), a.length = b.length →
      ((a.zip b).enumFrom n).map (fun p => (p.1, p.2.1)) = a.enumFrom n := by
  intro a
  induction a with
  | nil => intro b n h; simp
  | cons x xs ih =>
    intro b n h
    cases b with
    | nil => simp at h
    | cons y ys =>
      simp only [List.zip_cons_cons, List.enumFrom_cons, List.map_cons]
      rw [ih ys (n + 1) (by simpa using h)]

theorem enum_zip_map_fst {α β : Type _} (a : List α) (b : List β)
    (h : a.length = b.length) :
    ((a.zip b).enum).map (fun p => (p.1, p.2.1)) = a.enum :=
  enumFrom_zip_map_fst a b 0 h

/-! ### The well-formedness invariant of a built index -/

/-- Lane widths of an `L`-lane index with fan-out `order`, coarsest first:
`order^L, ..., order^1`. -/
def widthsList (order L : Nat) : List Nat :=
  (List.range L).map (fun i => order ^ (L - i))

theorem widthsList_succ {order L : Nat} :
    widthsList order (L + 1) = order ^ (L + 1) :: widthsList order L := by
  unfold widthsList
  rw [List.range_succ_eq_map]
  simp only [List.map_cons, List.map_map, Nat.sub_zero]
  congr 1
  have hfun : (fun i => order ^ (L + 1 - i)) ∘ Nat.succ = fun i => order ^ (L - i) := by
    funext i
    simp [Nat.succ_sub_succ]
  rw [hfun]

/-- The structural invariant maintained by `new` and `push`: positive
fan-out, a nonempty lane stack with widths `order^L .. order^1` coarsest
first, every lane's bounding intervals equal to the closed-form blocks over
the current slow lane, and parallel storage vectors everywhere. -/
structure Wf (idx : IntervalIndex V A) : Prop where
  order_pos : 1 ≤ idx.order
  lanes_ne : idx.fast_lanes ≠ []
  widths : idx.fast_lanes.map FastLane.interval =
    widthsList idx.order idx.fast_lanes.length
  bounds : ∀ lane ∈ idx.fast_lanes,
    lane.intervals = blocksSpec idx.slow_lane.intervals lane.interval
  parallel_slow : idx.slow_lane.values.length = idx.slow_lane.intervals.length
  parallel_fast : ∀ lane ∈ idx.fast_lanes,
    lane.aggregations.length = lane.intervals.length

theorem width_pos_of_mem_widthsList {order L w : Nat} (horder : 1 ≤ order)
    (h : w ∈ widthsList order L) : 1 ≤ w := by
  unfold widthsList at h
  simp only [List.mem_map, List.mem_range] at h
  obtain ⟨i, hi, hw⟩ := h
  rw [← hw]
  show 0 < order ^ (L - i)
  exact pow_pos horder _

/-- Every lane of a well-formed index has a positive block width. -/
theorem Wf.width_pos {idx : IntervalIndex V A} (hwf : Wf idx) {lane : FastLane A}
    (h : lane ∈ idx.fast_lanes) : 1 ≤ lane.interval := by
  apply width_pos_of_mem_widthsList hwf.order_pos
  rw [← hwf.widths]
  exact List.mem_map_of_mem _ h

theorem wf_new (V A : Type) {order : Nat} (horder : 1 ≤ order) :
    Wf (IntervalIndex.new V A order) := by
  constructor
  · exact horder
  · simp [IntervalIndex.new]
  · show [order] = widthsList order 1
    unfold widthsList
    rw [List.range_succ]
    simp
  · intro lane hlane
    simp only [IntervalIndex.new, List.mem_singleton] at hlane
    subst hlane
    exact blocksSpec_nil.symm
  · rfl
  · intro lane hlane
    simp only [IntervalIndex.new, List.mem_singleton] at hlane
    subst hlane
    rfl

theorem wf_rebuild (ops : AggregateOps V A) {idx : IntervalIndex V A} (hwf : Wf idx) :
    Wf (idx.rebuild_top_level ops) := by
  unfold IntervalIndex.rebuild_top_level
  split
  · exact hwf
  case _ top rest heq =>
    have htopmem : top ∈ idx.fast_lanes := by rw [heq]; exact List.mem_cons_self _ _
    have hL : idx.fast_lanes.length = rest.length + 1 := by rw [heq]; rfl
    have hwidths := hwf.widths
    rw [heq, List.length_cons] at hwidths
    rw [widthsList_succ, List.map_cons] at hwidths
    have htopw : top.interval = idx.order ^ (rest.length + 1) := (List.cons_eq_cons.mp hwidths).1
    have hrestw : rest.map FastLane.interval = widthsList idx.order rest.length :=
      (List.cons_eq_cons.mp hwidths).2
    have htoppar := hwf.parallel_fast top htopmem
    have htopbounds := hwf.bounds top htopmem
    have htopWpos : 1 ≤ top.interval := hwf.width_pos htopmem
    have hnewiv :
        ((top.intervals.zip top.aggregations).enum.foldl
          (fun (fl : FastLane A) (p : Nat × (Interval × A)) =>
            let copy := ops.aggregate ops.empty p.2.2
            if p.1 % idx.order == 0 then fl.push p.2.1 copy
            else fl.update ops (p.1 / idx.order) p.2.1 copy)
          { interval := idx.order ^ (idx.fast_lanes.length + 1), intervals := [],
            aggregations := [] }).intervals
          = blocksSpec idx.slow_lane.intervals (idx.order ^ (idx.fast_lanes.length + 1)) := by
      rw [foldl_rebuildStep_intervals]
      rw [enum_zip_map_fst _ _ htoppar.symm]
      show top.intervals.enum.foldl (boundStep idx.order) [] = _
      rw [foldl_boundStep_enum hwf.order_pos, htopbounds,
        blocksSpec_compose htopWpos hwf.order_pos, htopw, hL]
      rw [← pow_succ']
    constructor
    · exact hwf.order_pos
    · simp
    · rw [List.map_cons, List.length_cons]
      rw [foldl_rebuildStep_interval_field]
      show idx.order ^ (idx.fast_lanes.length + 1) :: _ = _
      rw [widthsList_succ, hwf.widths]
    · intro lane hlane
      rcases List.mem_cons.mp hlane with hl | hl
      · subst hl
        rw [foldl_rebuildStep_interval_field]
        exact hnewiv
      · exact hwf.bounds lane hl
    · exact hwf.parallel_slow
    · intro lane hlane
      rcases List.mem_cons.mp hlane with hl | hl
      · subst hl
        exact foldl_rebuildStep_parallel ops _ _ rfl
      · exact hwf.parallel_fast lane hl

/-- The state of `IntervalIndex::push` after the lane pushes and the
slow-lane append, before the rebuild check (`idx1` in the embedding of
`push`). -/
def pushMid (ops : AggregateOps V A) (idx : IntervalIndex V A) (iv : Interval)
    (v : V) : IntervalIndex V A :=
  { idx with
    fast_lanes := idx.fast_lanes.map (fun lane =>
      let aggregate := ops.initial iv v
      if idx.slow_lane.len % lane.interval == 0 then lane.push iv aggregate
      else lane.update ops (idx.slow_lane.len / lane.interval) iv aggregate)
    slow_lane := idx.slow_lane.push iv v }

theorem push_eq (ops : AggregateOps V A) (idx : IntervalIndex V A) (iv : Interval) (v : V) :
    idx.push ops iv v =
      match (pushMid ops idx iv v).fast_lanes with
      | [] => pushMid ops idx iv v
      | top :: _ =>
        if top.len == (pushMid ops idx iv v).max_top_level
        then (pushMid ops idx iv v).rebuild_top_level ops
        else pushMid ops idx iv v := rfl

theorem push_eq_cases (ops : AggregateOps V A) (idx : IntervalIndex V A) (iv : Interval)
    (v : V) :
    idx.push ops iv v = pushMid ops idx iv v ∨
      idx.push ops iv v = (pushMid ops idx iv v).rebuild_top_level ops := by
  rw [push_eq]
  cases hm : (pushMid ops idx iv v).fast_lanes with
  | nil => exact Or.inl rfl
  | cons top rest =>
    by_cases hc : (top.len == (pushMid ops idx iv v).max_top_level) = true
    · simp only [hc, if_pos rfl]
      exact Or.inr rfl
    · simp only [Bool.not_eq_true] at hc
      simp only [hc]
      exact Or.inl rfl

theorem map_interval_of_step {f : FastLane A → FastLane A} :
    ∀ {lanes : List (FastLane A)}, (∀ lane ∈ lanes, (f lane).interval = lane.interval) →
      (lanes.map f).map FastLane.interval = lanes.map FastLane.interval := by
  intro lanes
  induction lanes with
  | nil => intro _; rfl
  | cons x xs ih =>
    intro h
    simp only [List.map_cons]
    rw [h x (List.mem_cons_self _ _), ih (fun lane hm => h lane (List.mem_cons_of_mem _ hm))]

theorem wf_pushMid (ops : AggregateOps V A) {idx : IntervalIndex V A} (hwf : Wf idx)
    (iv : Interval) (v : V) : Wf (pushMid ops idx iv v) := by
  have hstep : ∀ lane ∈ idx.fast_lanes,
      ((fun (lane : FastLane A) =>
        let aggregate := ops.initial iv v
        if idx.slow_lane.len % lane.interval == 0 then lane.push iv aggregate
        else lane.update ops (idx.slow_lane.len / lane.interval) iv aggregate) lane).interval
        = lane.interval := by
    intro lane _
    by_cases h : (idx.slow_lane.len % lane.interval == 0) = true <;>
      simp [h, FastLane.push, FastLane.update]
  constructor
  · exact hwf.order_pos
  · show idx.fast_lanes.map _ ≠ []
    intro h
    exact hwf.lanes_ne (List.map_eq_nil.mp h)
  · show (idx.fast_lanes.map _).map FastLane.interval =
      widthsList idx.order (idx.fast_lanes.map _).length
    rw [List.length_map, map_interval_of_step hstep, hwf.widths]
  · intro lane' hm
    obtain ⟨lane, hmem, hl⟩ := List.mem_map.mp hm
    subst hl
    have hW := hwf.width_pos hmem
    have hb := hwf.bounds lane hmem
    show ((fun (lane : FastLane A) =>
      let aggregate := ops.initial iv v
      if idx.slow_lane.len % lane.interval == 0 then lane.push iv aggregate
      else lane.update ops (idx.slow_lane.len / lane.interval) iv aggregate) lane).intervals
        = blocksSpec (idx.slow_lane.push iv v).intervals _
    rw [hstep lane hmem]
    exact pushLane_intervals ops hW hb
  · show (idx.slow_lane.push iv v).values.length = (idx.slow_lane.push iv v).intervals.length
    simp [SlowLane.push, hwf.parallel_slow]
  · intro lane' hm
    obtain ⟨lane, hmem, hl⟩ := List.mem_map.mp hm
    subst hl
    have hp := hwf.parallel_fast lane hmem
    by_cases h : (idx.slow_lane.len % lane.interval == 0) = true <;>
      simp [h, FastLane.push, FastLane.update, hp]

theorem wf_push (ops : AggregateOps V A) {idx : IntervalIndex V A} (hwf : Wf idx)
    (iv : Interval) (v : V) : Wf (idx.push ops iv v) := by
  rcases push_eq_cases ops idx iv v with h | h <;> rw [h]
  · exact wf_pushMid ops hwf iv v
  · exact wf_rebuild ops (wf_pushMid ops hwf iv v)

theorem rebuild_order (ops : AggregateOps V A) (idx : IntervalIndex V A) :
    (idx.rebuild_top_level ops).order = idx.order := by
  unfold IntervalIndex.rebuild_top_level
  split <;> rfl

theorem rebuild_slow (ops : AggregateOps V A) (idx : IntervalIndex V A) :
    (idx.rebuild_top_level ops).slow_lane = idx.slow_lane := by
  unfold IntervalIndex.rebuild_top_level
  split <;> rfl

theorem push_order (ops : AggregateOps V A) (idx : IntervalIndex V A) (iv : Interval)
    (v : V) : (idx.push ops iv v).order = idx.order := by
  rcases push_eq_cases ops idx iv v with h | h <;> rw [h]
  · rfl
  · rw [rebuild_order]
    rfl

theorem push_slow (ops : AggregateOps V A) (idx : IntervalIndex V A) (iv : Interval)
    (v : V) : (idx.push ops iv v).slow_lane = idx.slow_lane.push iv v := by
  rcases push_eq_cases ops idx iv v with h | h <;> rw [h]
  · rfl
  · rw [rebuild_slow]
    rfl

theorem wf_build (ops : AggregateOps V A) {order : Nat} (horder : 1 ≤ order)
    (items : List (Interval × V)) : Wf (IntervalIndex.build ops order items) := by
  have key : ∀ (its : List (Interval × V)) (idx : IntervalIndex V A), Wf idx →
      Wf (its.foldl (fun idx p => idx.push ops p.1 p.2) idx) := by
    intro its
    induction its with
    | nil => intro idx h; exact h
    | cons p rest ih => intro idx h; exact ih _ (wf_push ops h p.1 p.2)
  exact key items _ (wf_new V A horder)

theorem build_order (ops : AggregateOps V A) (order : Nat) (items : List (Interval × V)) :
    (IntervalIndex.build ops order items).order = order := by
  have key : ∀ (its : List (Interval × V)) (idx : IntervalIndex V A),
      (its.foldl (fun idx p => idx.push ops p.1 p.2) idx).order = idx.order := by
    intro its
    induction its with
    | nil => intro idx; rfl
    | cons p rest ih => intro idx; rw [List.foldl_cons, ih, push_order]
  exact key items _

theorem build_slow_intervals (ops : AggregateOps V A) (order : Nat)
    (items : List (Interval × V)) :
    (IntervalIndex.build ops order items).slow_lane.intervals = items.map Prod.fst := by
  have key : ∀ (its : List (Interval × V)) (idx : IntervalIndex V A),
      (its.foldl (fun idx p => idx.push ops p.1 p.2) idx).slow_lane.intervals =
        idx.slow_lane.intervals ++ its.map Prod.fst := by
    intro its
    induction its with
    | nil => intro idx; simp
    | cons p rest ih =>
      intro idx
      rw [List.foldl_cons, ih, push_slow]
      show idx.slow_lane.intervals ++ [p.1] ++ rest.map Prod.fst = _
      simp
  rw [IntervalIndex.build, key items _]
  rfl

/-! ### Correctness of the two-phase overlap search -/

theorem findIdx_le_of_true {p : α → Bool} {l : List α} {n : Nat} {a : α}
    (h : l[n]? = some a) (hp : p a = true) : l.findIdx p ≤ n := by
  by_contra hcon
  push_neg at hcon
  have hn : n < l.length := (List.getElem?_eq_some.mp h).1
  have hfalse := List.not_of_lt_findIdx hcon
  rw [List.getElem?_eq_getElem hn] at h
  simp only [Option.some_inj] at h
  rw [h, hp] at hfalse
  cases hfalse

theorem findIdx_false_of_lt {p : α → Bool} {l : List α} {m : Nat}
    (h : m < l.findIdx p) : ∃ a, l[m]? = some a ∧ p a = false := by
  have hm : m < l.length := Nat.lt_of_lt_of_le h (List.findIdx_le_length p)
  exact ⟨l[m], List.getElem?_eq_getElem hm, List.not_of_lt_findIdx h⟩

theorem findIdx_eq_of {p : α → Bool} {l : List α} {n : Nat} (hn : n < l.length)
    (hfalse : ∀ m, m < n → ∀ a, l[m]? = some a → p a = false)
    (htrue : ∀ a, l[n]? = some a → p a = true) : l.findIdx p = n := by
  have hsome : l[n]? = some l[n] := List.getElem?_eq_getElem hn
  have hle : l.findIdx p ≤ n := findIdx_le_of_true hsome (htrue _ hsome)
  rcases Nat.lt_or_ge (l.findIdx p) n with hlt | hge
  · have hflen : l.findIdx p < l.length := by omega
    have ht := @List.findIdx_getElem _ p l hflen
    have hf := hfalse _ hlt _ (List.getElem?_eq_getElem hflen)
    rw [hf] at ht
    cases ht
  · omega

/-- Phase-1 soundness of skipping a block: if a block's bounding interval
does not overlap the window, no element of the block does (uses the sorted
precondition for the `start` side). -/
theorem no_overlap_of_block_no_overlap {l : List Interval} {w : Interval} {W c : Nat}
    (hsorted : StartSorted l) (hW : 1 ≤ W) (hc : c * W < l.length)
    (hno : (blockOf (chunk l c W)).overlaps w = false) :
    ∀ j a, c * W ≤ j → j < (c + 1) * W → l[j]? = some a → a.overlaps w = false := by
  intro j a hj1 hj2 hja
  have hcW : (c + 1) * W = c * W + W := by ring
  have hmem : a ∈ chunk l c W := by
    rw [mem_chunk_iff]
    refine ⟨j - c * W, by omega, ?_⟩
    rw [show c * W + (j - c * W) = j by omega]
    exact hja
  have hstart := headStart_le_of_mem_chunk hsorted hW hc hmem
  have hend := le_maxEnd_of_mem hmem
  have e1 : (blockOf (chunk l c W)).start = headStart (chunk l c W) := rfl
  have e2 : (blockOf (chunk l c W)).end_ = maxEnd (chunk l c W) := rfl
  rw [overlaps_eq_false_iff] at hno ⊢
  omega

/-- Phase-1 completeness: the block containing an overlapping element has an
overlapping bounding interval. -/
theorem block_overlap_of_elem_overlap {l : List Interval} {w : Interval} {W k j : Nat}
    {a : Interval} (hsorted : StartSorted l) (hW : 1 ≤ W) (hj1 : k * W ≤ j)
    (hj2 : j < (k + 1) * W) (hja : l[j]? = some a) (hov : a.overlaps w = true) :
    (blockOf (chunk l k W)).overlaps w = true := by
  have hjlen : j < l.length := (List.getElem?_eq_some.mp hja).1
  have hk : k * W < l.length := by omega
  have hkW : (k + 1) * W = k * W + W := by ring
  have hmem : a ∈ chunk l k W := by
    rw [mem_chunk_iff]
    refine ⟨j - k * W, by omega, ?_⟩
    rw [show k * W + (j - k * W) = j by omega]
    exact hja
  have hstart := headStart_le_of_mem_chunk hsorted hW hk hmem
  have hend := le_maxEnd_of_mem hmem
  have e1 : (blockOf (chunk l k W)).start = headStart (chunk l k W) := rfl
  have e2 : (blockOf (chunk l k W)).end_ = maxEnd (chunk l k W) := rfl
  rw [overlaps_iff] at hov ⊢
  omega

/-- The lane-descent of `first_fastlane_overlap`: starting from a sound
offset, it succeeds (no out-of-bounds slice) and produces a slow-lane
position that is at most the first overlapping position, with nothing
overlapping below it.  Requires at least one overlapping element. -/
theorem descend {l : List Interval} {w : Interval} {order : Nat} (horder : 1 ≤ order)
    (hsorted : StartSorted l) {istar : Nat} (histar : istar < l.length)
    (hover : ∀ a, l[istar]? = some a → a.overlaps w = true)
    (hmin : ∀ j, j < istar → ∀ a, l[j]? = some a → a.overlaps w = false) :
    ∀ (lanes : List (FastLane A)) (offset : Nat),
      lanes.map FastLane.interval = widthsList order lanes.length →
      (∀ lane ∈ lanes, lane.intervals = blocksSpec l lane.interval) →
      offset ≤ istar / order ^ lanes.length →
      (∀ j, j < offset * order ^ lanes.length → ∀ a, l[j]? = some a →
        a.overlaps w = false) →
      ∃ R, (lanes.foldlM (fun offset (lane : FastLane A) =>
          match sliceFrom lane.intervals offset with
          | none => none
          | some s =>
            some ((offset + s.findIdx (fun interval => interval.overlaps w)) * order))
          offset : Option Nat) = some R ∧
        R ≤ istar ∧
        ∀ j, j < R → ∀ a, l[j]? = some a → a.overlaps w = false := by
  intro lanes
  induction lanes with
  | nil =>
    intro offset _ _ hoff hinv
    refine ⟨offset, rfl, ?_, ?_⟩
    · simpa using hoff
    · simpa using hinv
  | cons lane rest ih =>
    intro offset hwidths hbounds hoff hinv
    rw [List.length_cons, widthsList_succ, List.map_cons] at hwidths
    rw [List.length_cons] at hoff hinv
    have hlanew : lane.interval = order ^ (rest.length + 1) :=
      (List.cons_eq_cons.mp hwidths).1
    have hrestw : rest.map FastLane.interval = widthsList order rest.length :=
      (List.cons_eq_cons.mp hwidths).2
    set W := order ^ (rest.length + 1) with hWdef
    have hWpos : 0 < W := pow_pos horder _
    have hlb : lane.intervals = blocksSpec l W := by
      rw [hbounds lane (List.mem_cons_self _ _), hlanew]
    have hkmul : istar / W * W ≤ istar := Nat.div_mul_le_self _ _
    have hkmul2 : istar < (istar / W + 1) * W := by
      have h1 := Nat.div_add_mod istar W
      have h2 : W * (istar / W) = istar / W * W := Nat.mul_comm _ _
      have h3 : istar % W < W := Nat.mod_lt _ hWpos
      have h4 : (istar / W + 1) * W = istar / W * W + W := by ring
      omega
    have hknum : istar / W < numBlocks l.length W := by
      rw [lt_numBlocks_iff hWpos]
      omega
    have hofflen : offset ≤ lane.intervals.length := by
      rw [hlb, length_blocksSpec]
      omega
    have hslice : sliceFrom lane.intervals offset = some (lane.intervals.drop offset) := by
      unfold sliceFrom
      rw [if_pos hofflen]
    set j0 := (lane.intervals.drop offset).findIdx (fun interval => interval.overlaps w)
      with hj0def
    have histar_some : l[istar]? = some l[istar] := List.getElem?_eq_getElem histar
    have hbK : (blockOf (chunk l (istar / W) W)).overlaps w = true :=
      block_overlap_of_elem_overlap hsorted hWpos hkmul hkmul2 histar_some
        (hover _ histar_some)
    have hKdrop : (lane.intervals.drop offset)[istar / W - offset]? =
        some (blockOf (chunk l (istar / W) W)) := by
      rw [List.getElem?_drop, show offset + (istar / W - offset) = istar / W by omega, hlb,
        getElem?_blocksSpec, if_pos hknum]
    have hj0le : j0 ≤ istar / W - offset := findIdx_le_of_true hKdrop hbK
    have hble : offset + j0 ≤ istar / W := by omega
    have hbelow : ∀ j, j < (offset + j0) * W → ∀ a, l[j]? = some a →
        a.overlaps w = false := by
      intro j hj a hja
      by_cases hjo : j < offset * W
      · exact hinv j hjo a hja
      · have hcW : j / W * W ≤ j := Nat.div_mul_le_self _ _
        have hcW2 : j < (j / W + 1) * W := by
          have h1 := Nat.div_add_mod j W
          have h2 : W * (j / W) = j / W * W := Nat.mul_comm _ _
          have h3 : j % W < W := Nat.mod_lt _ hWpos
          have h4 : (j / W + 1) * W = j / W * W + W := by ring
          omega
        have hcoff : offset ≤ j / W := (Nat.le_div_iff_mul_le hWpos).mpr (by omega)
        have hcb : j / W < offset + j0 := (Nat.div_lt_iff_lt_mul hWpos).mpr hj
        have hcnum : j / W < numBlocks l.length W := by omega
        obtain ⟨bnd, hbnd, hbndfalse⟩ := findIdx_false_of_lt
          (show j / W - offset < j0 by omega)
        rw [List.getElem?_drop, show offset + (j / W - offset) = j / W by omega, hlb,
          getElem?_blocksSpec, if_pos hcnum] at hbnd
        simp only [Option.some_inj] at hbnd
        rw [← hbnd] at hbndfalse
        exact no_overlap_of_block_no_overlap hsorted hWpos
          ((lt_numBlocks_iff hWpos).mp hcnum)
          hbndfalse j a hcW hcW2 hja
    have hpow : W = order ^ rest.length * order := by
      rw [hWdef, pow_succ]
    have hoffnext : (offset + j0) * order ≤ istar / order ^ rest.length := by
      have hdd : istar / order ^ rest.length / order = istar / W := by
        rw [Nat.div_div_eq_div_mul, ← hpow]
      have h1 : (offset + j0) * order ≤ (istar / order ^ rest.length / order) * order := by
        apply Nat.mul_le_mul_right
        omega
      have h2 : (istar / order ^ rest.length / order) * order ≤ istar / order ^ rest.length :=
        Nat.div_mul_le_self _ _
      omega
    have hinvnext : ∀ j, j < (offset + j0) * order * order ^ rest.length →
        ∀ a, l[j]? = some a → a.overlaps w = false := by
      intro j hj a hja
      apply hbelow j _ a hja
      have e1 : (offset + j0) * order * order ^ rest.length =
          (offset + j0) * (order ^ rest.length * order) := by ring
      rw [← hpow] at e1
      omega
    obtain ⟨R, hR, hR2, hR3⟩ := ih ((offset + j0) * order) hrestw
      (fun lane hm => hbounds lane (List.mem_cons_of_mem _ hm)) hoffnext hinvnext
    refine ⟨R, ?_, hR2, hR3⟩
    rw [List.foldlM_cons, hslice]
    exact hR

/-- Phase 1 + phase 2: on a well-formed, start-sorted index, when some
stored interval overlaps the window, `first_overlap` succeeds and returns
the first overlapping slow-lane position. -/
theorem first_overlap_of_wf {idx : IntervalIndex V A} (hwf : Wf idx) {w : Interval}
    (hsorted : StartSorted idx.slow_lane.intervals)
    {j0 : Nat} {a0 : Interval} (hex : idx.slow_lane.intervals[j0]? = some a0)
    (hex2 : a0.overlaps w = true) :
    idx.first_overlap w =
      some (idx.slow_lane.intervals.findIdx (fun interval => interval.overlaps w)) := by
  have hj0len : j0 < idx.slow_lane.intervals.length := (List.getElem?_eq_some.mp hex).1
  have histar_le : idx.slow_lane.intervals.findIdx (fun interval => interval.overlaps w) ≤ j0 :=
    findIdx_le_of_true hex hex2
  have histar : idx.slow_lane.intervals.findIdx (fun interval => interval.overlaps w) <
      idx.slow_lane.intervals.length := by omega
  have hover : ∀ a,
      idx.slow_lane.intervals[idx.slow_lane.intervals.findIdx
        (fun interval => interval.overlaps w)]? = some a → a.overlaps w = true := by
    intro a ha
    have ht := @List.findIdx_getElem _ (fun interval => interval.overlaps w)
      idx.slow_lane.intervals histar
    rw [List.getElem?_eq_getElem histar] at ha
    simp only [Option.some_inj] at ha
    rw [ha] at ht
    exact ht
  have hmin : ∀ j, j < idx.slow_lane.intervals.findIdx (fun interval => interval.overlaps w) →
      ∀ a, idx.slow_lane.intervals[j]? = some a → a.overlaps w = false := by
    intro j hj a ha
    have hf := List.not_of_lt_findIdx hj
    have hjlen : j < idx.slow_lane.intervals.length := (List.getElem?_eq_some.mp ha).1
    rw [List.getElem?_eq_getElem hjlen] at ha
    simp only [Option.some_inj] at ha
    rw [ha] at hf
    exact hf
  obtain ⟨R, hfold, hRle, hRmin⟩ := descend hwf.order_pos hsorted histar hover hmin
    idx.fast_lanes 0 hwf.widths hwf.bounds (Nat.zero_le _) (by intro j hj; omega)
  have hRlen : R ≤ idx.slow_lane.intervals.length := by omega
  have hslice : sliceFrom idx.slow_lane.intervals R =
      some (idx.slow_lane.intervals.drop R) := by
    unfold sliceFrom
    rw [if_pos hRlen]
  have hfi : (idx.slow_lane.intervals.drop R).findIdx (fun interval => interval.overlaps w) =
      idx.slow_lane.intervals.findIdx (fun interval => interval.overlaps w) - R := by
    apply findIdx_eq_of
    · rw [List.length_drop]
      omega
    · intro m hm a ha
      rw [List.getElem?_drop] at ha
      exact hmin _ (by omega) a ha
    · intro a ha
      rw [List.getElem?_drop,
        show R + (idx.slow_lane.intervals.findIdx (fun interval => interval.overlaps w) - R) =
          idx.slow_lane.intervals.findIdx (fun interval => interval.overlaps w) by omega] at ha
      exact hover a ha
  unfold IntervalIndex.first_overlap IntervalIndex.first_fastlane_overlap
  simp only [hfold, hslice, hfi, List.length_drop]
  rw [if_pos (by omega)]
  rw [show R + (idx.slow_lane.intervals.findIdx (fun interval => interval.overlaps w) - R) =
    idx.slow_lane.intervals.findIdx (fun interval => interval.overlaps w) by omega]

/-! ### Invariants of the `RangeVisitor` output -/

/-- Invariant of the (reversed) range list held by `RVState`: every range is
nonempty, and each range ends strictly before the previously-added (i.e.
later in the traversal) range starts. -/
def RInv (out : List (Nat × Nat)) : Prop :=
  (∀ r ∈ out, r.1 < r.2) ∧ List.Chain' (fun a b : Nat × Nat => b.2 < a.1) out

/-- End position of the most recently added range (0 when none yet). -/
def headEnd : List (Nat × Nat) → Nat
  | [] => 0
  | r :: _ => r.2

theorem rvAdd_inv {out : List (Nat × Nat)} {s e : Nat} (hinv : RInv out)
    (hhead : headEnd out ≤ s) (hse : s < e) :
    RInv (rvAdd out s e) ∧ headEnd (rvAdd out s e) = e := by
  obtain ⟨hne, hchain⟩ := hinv
  cases out with
  | nil =>
    refine ⟨⟨?_, ?_⟩, rfl⟩
    · intro r hr
      simp only [rvAdd, List.mem_singleton] at hr
      subst hr
      exact hse
    · exact List.chain'_singleton _
  | cons prev rest =>
    by_cases hc : prev.2 = s
    · have hre : rvAdd (prev :: rest) s e = (prev.1, e) :: rest := by
        show (if (prev.2 == s) = true then (prev.1, e) :: rest
          else (s, e) :: prev :: rest) = (prev.1, e) :: rest
        rw [if_pos (by simp [hc])]
      rw [hre]
      have hprev := hne prev (List.mem_cons_self _ _)
      refine ⟨⟨?_, ?_⟩, rfl⟩
      · intro r hr
        rcases List.mem_cons.mp hr with hr | hr
        · subst hr
          show prev.1 < e
          omega
        · exact hne r (List.mem_cons_of_mem _ hr)
      · cases rest with
        | nil => exact List.chain'_singleton _
        | cons r2 rest2 =>
          have hc2 := List.chain'_cons.mp hchain
          exact List.chain'_cons.mpr ⟨hc2.1, hc2.2⟩
    · have hre : rvAdd (prev :: rest) s e = (s, e) :: prev :: rest := by
        show (if (prev.2 == s) = true then (prev.1, e) :: rest
          else (s, e) :: prev :: rest) = (s, e) :: prev :: rest
        rw [if_neg (by simp [hc])]
      rw [hre]
      have hlt : prev.2 < s := by
        have he : headEnd (prev :: rest) = prev.2 := rfl
        omega
      refine ⟨⟨?_, ?_⟩, rfl⟩
      · intro r hr
        rcases List.mem_cons.mp hr with hr | hr
        · subst hr
          exact hse
        · exact hne r hr
      · exact List.chain'_cons.mpr ⟨hlt, hchain⟩

theorem slowScan_rv_inv (w : Interval) (slow : SlowLane V) (A : Type) (slowLen index : Nat) :
    ∀ (ivs : List Interval) (i : Nat) (st : RVState),
      RInv st.output → headEnd st.output ≤ index + i →
      RInv (slowScan w (rangeVisitor V A slowLen) slow index ivs i st).1.output ∧
        headEnd (slowScan w (rangeVisitor V A slowLen) slow index ivs i st).1.output ≤
          index + i + ivs.length := by
  intro ivs
  induction ivs with
  | nil =>
    intro i st hinv hhead
    exact ⟨hinv, by simpa using hhead⟩
  | cons iv rest ih =>
    intro i st hinv hhead
    have heq : slowScan w (rangeVisitor V A slowLen) slow index (iv :: rest) i st =
        if iv.start > w.end_ then (st, true)
        else slowScan w (rangeVisitor V A slowLen) slow index rest (i + 1)
          (if iv.overlaps w then (rangeVisitor V A slowLen).visit_slow_lane st slow (index + i)
           else st) := rfl
    rw [heq]
    by_cases hbrk : iv.start > w.end_
    · rw [if_pos hbrk]
      refine ⟨hinv, ?_⟩
      show headEnd st.output ≤ index + i + (iv :: rest).length
      rw [List.length_cons]
      omega
    · rw [if_neg hbrk]
      by_cases hov : iv.overlaps w = true
      · rw [if_pos hov]
        have hadd := rvAdd_inv hinv hhead (Nat.lt_succ_self (index + i))
        have h2 := ih (i + 1)
          ((rangeVisitor V A slowLen).visit_slow_lane st slow (index + i))
          hadd.1
          (by show headEnd (rvAdd st.output (index + i) (index + i + 1)) ≤ index + (i + 1)
              rw [hadd.2]
              omega)
        refine ⟨h2.1, ?_⟩
        have h3 := h2.2
        rw [List.length_cons]
        omega
      · rw [if_neg hov]
        have h2 := ih (i + 1) st hinv (by omega)
        refine ⟨h2.1, ?_⟩
        have h3 := h2.2
        rw [List.length_cons]
        omega

theorem findSkipLane_mem {w : Interval} {index : Nat} :
    ∀ {lanes : List (FastLane A)} {lane : FastLane A},
      findSkipLane w index lanes = some lane → lane ∈ lanes := by
  intro lanes
  induction lanes with
  | nil => intro lane h; cases h
  | cons l0 rest ih =>
    intro lane h
    unfold findSkipLane at h
    rcases hg : l0.intervals[index / l0.interval]? with _ | iv
    · rw [hg] at h
      have h2 : findSkipLane w index rest = some lane := h
      exact List.mem_cons_of_mem _ (ih h2)
    · rw [hg] at h
      have h2 : (if w.contains iv = true then some l0 else findSkipLane w index rest) =
          some lane := h
      by_cases hc : w.contains iv = true
      · rw [if_pos hc] at h2
        simp only [Option.some_inj] at h2
        rw [← h2]
        exact List.mem_cons_self _ _
      · rw [if_neg hc] at h2
        exact List.mem_cons_of_mem _ (ih h2)

theorem slice_length {l : List α} {a b : Nat} {s : List α} (h : slice l a b = some s) :
    s.length = b - a := by
  unfold slice at h
  by_cases hc : a ≤ b ∧ b ≤ l.length
  · rw [if_pos hc] at h
    simp only [Option.some_inj] at h
    rw [← h]
    simp
    omega
  · rw [if_neg hc] at h
    cases h

/-- One-step unfolding of the `query_with` loop. -/
theorem queryLoop_succ (idx : IntervalIndex V A) (w : Interval) (q : QueryVisitor V A σ)
    (fuel index : Nat) (st : σ) :
    queryLoop idx w q (fuel + 1) index st =
      if index < idx.slow_lane.intervals.length then
        match findSkipLane w index idx.fast_lanes with
        | some lane =>
          queryLoop idx w q fuel (index + lane.interval) (q.visit_fast_lane st lane index)
        | none =>
          match slice idx.slow_lane.intervals
              (Nat.min index (idx.slow_lane.intervals.length - 1))
              (Nat.min (index + (idx.order - index % idx.order))
                idx.slow_lane.intervals.length) with
          | none => none
          | some intervals =>
            let res := slowScan w q idx.slow_lane index intervals 0 st
            if res.2 then some res.1
            else queryLoop idx w q fuel
              (Nat.min (index + (idx.order - index % idx.order))
                idx.slow_lane.intervals.length) res.1
      else some st := rfl

theorem queryLoop_rv_inv {idx : IntervalIndex V A} {w : Interval}
    (hwidth : ∀ lane ∈ idx.fast_lanes, 1 ≤ lane.interval) :
    ∀ (fuel index : Nat) (st st' : RVState),
      RInv st.output → headEnd st.output ≤ index →
      queryLoop idx w (rangeVisitor V A idx.slow_lane.len) fuel index st = some st' →
      RInv st'.output := by
  intro fuel
  induction fuel with
  | zero => intro index st st' _ _ h; cases h
  | succ fuel ih =>
    intro index st st' hinv hhead h
    rw [queryLoop_succ] at h
    by_cases hlen : index < idx.slow_lane.intervals.length
    · rw [if_pos hlen] at h
      rcases hf : findSkipLane w index idx.fast_lanes with _ | lane
      · rw [hf] at h
        rcases hs : slice idx.slow_lane.intervals
            (Nat.min index (idx.slow_lane.intervals.length - 1))
            (Nat.min (index + (idx.order - index % idx.order))
              idx.slow_lane.intervals.length) with _ | ivs
        · rw [hs] at h
          cases h
        · rw [hs] at h
          have h2 : (if (slowScan w (rangeVisitor V A idx.slow_lane.len)
                idx.slow_lane index ivs 0 st).2 = true
              then some (slowScan w (rangeVisitor V A idx.slow_lane.len)
                idx.slow_lane index ivs 0 st).1
              else queryLoop idx w (rangeVisitor V A idx.slow_lane.len) fuel
                (Nat.min (index + (idx.order - index % idx.order))
                  idx.slow_lane.intervals.length)
                (slowScan w (rangeVisitor V A idx.slow_lane.len)
                  idx.slow_lane index ivs 0 st).1) = some st' := h
          have hstart : Nat.min index (idx.slow_lane.intervals.length - 1) = index := by
            show min index (idx.slow_lane.intervals.length - 1) = index
            rw [min_eq_left (by omega)]
          have hstop : index ≤ Nat.min (index + (idx.order - index % idx.order))
              idx.slow_lane.intervals.length := by
            show index ≤ min (index + (idx.order - index % idx.order))
              idx.slow_lane.intervals.length
            rw [le_min_iff]
            omega
          have hscan := slowScan_rv_inv w idx.slow_lane A idx.slow_lane.len index
            ivs 0 st hinv (by omega)
          have hivslen := slice_length hs
          rw [hstart] at hivslen
          by_cases hbrk : (slowScan w (rangeVisitor V A idx.slow_lane.len)
              idx.slow_lane index ivs 0 st).2 = true
          · rw [if_pos hbrk] at h2
            simp only [Option.some_inj] at h2
            rw [← h2]
            exact hscan.1
          · rw [if_neg hbrk] at h2
            exact ih _ _ _ hscan.1 (by have h3 := hscan.2; omega) h2
      · rw [hf] at h
        have h2 : queryLoop idx w (rangeVisitor V A idx.slow_lane.len) fuel
            (index + lane.interval)
            ((rangeVisitor V A idx.slow_lane.len).visit_fast_lane st lane index) =
            some st' := h
        have hlane := findSkipLane_mem hf
        have hW := hwidth lane hlane
        have hlt : index < Nat.min (index + lane.interval) idx.slow_lane.len := by
          show index < min (index + lane.interval) idx.slow_lane.len
          have he : idx.slow_lane.len = idx.slow_lane.intervals.length := rfl
          rw [lt_min_iff]
          omega
        have hstep := rvAdd_inv hinv hhead hlt
        apply ih _ _ _ hstep.1 _ h2
        show headEnd (rvAdd st.output index
          (Nat.min (index + lane.interval) idx.slow_lane.len)) ≤ index + lane.interval
        rw [hstep.2]
        show min (index + lane.interval) idx.slow_lane.len ≤ index + lane.interval
        exact min_le_left _ _
    · rw [if_neg hlen] at h
      simp only [Option.some_inj] at h
      rw [← h]
      exact hinv

theorem queryRanges_chain {idx : IntervalIndex V A}
    (hwidth : ∀ lane ∈ idx.fast_lanes, 1 ≤ lane.interval) {w : Interval}
    {out : List (Nat × Nat)} (h : idx.queryRanges w = some out) :
    (∀ r ∈ out, r.1 < r.2) ∧ List.Chain' (fun a b : Nat × Nat => a.2 < b.1) out := by
  unfold IntervalIndex.queryRanges IntervalIndex.query_with at h
  rcases hfo : idx.first_overlap w with _ | i0
  · rw [hfo] at h
    cases h
  · rw [hfo] at h
    have h2 : (match queryLoop idx w (rangeVisitor V A idx.slow_lane.len)
        (idx.slow_lane.intervals.length + 1) i0 { count := 0, output := [] } with
        | none => none
        | some st => some st.output.reverse) = some out := h
    rcases hql : queryLoop idx w (rangeVisitor V A idx.slow_lane.len)
        (idx.slow_lane.intervals.length + 1) i0 { count := 0, output := [] } with _ | st
    · rw [hql] at h2
      cases h2
    · rw [hql] at h2
      simp only [Option.some_inj] at h2
      have hinv := queryLoop_rv_inv hwidth (idx.slow_lane.intervals.length + 1) i0
        { count := 0, output := [] } st
        (show RInv ([] : List (Nat × Nat)) from ⟨by simp, List.chain'_nil⟩)
        (Nat.zero_le i0) hql
      constructor
      · intro r hr
        rw [← h2] at hr
        exact hinv.1 r (List.mem_reverse.mp hr)
      · rw [← h2]
        exact List.chain'_reverse.mpr hinv.2

/-! ### Queries on the empty index (claim C8) -/

theorem first_overlap_new (V A : Type) (order : Nat) (w : Interval) :
    (IntervalIndex.new V A order).first_overlap w = some 0 := by
  unfold IntervalIndex.first_overlap IntervalIndex.first_fastlane_overlap IntervalIndex.new
    sliceFrom
  simp [List.findIdx_nil]

theorem query_with_new (V A σ : Type) (order : Nat) (w : Interval) (q : QueryVisitor V A σ)
    (st : σ) : (IntervalIndex.new V A order).query_with w q st = some st := by
  unfold IntervalIndex.query_with
  rw [first_overlap_new]
  show queryLoop (IntervalIndex.new V A order) w q (0 + 1) 0 st = some st
  rw [queryLoop_succ]
  rw [if_neg (by show ¬(0 < ([] : List Interval).length); simp)]

/-! ### Growth of the structure under one push (claim C10) -/

theorem rebuild_lanes_cases (ops : AggregateOps V A) (idx : IntervalIndex V A) :
    (idx.rebuild_top_level ops).fast_lanes = idx.fast_lanes ∨
      ∃ nl : FastLane A, (idx.rebuild_top_level ops).fast_lanes = nl :: idx.fast_lanes := by
  unfold IntervalIndex.rebuild_top_level
  split
  · exact Or.inl rfl
  · exact Or.inr ⟨_, rfl⟩

theorem step_lane_length (ops : AggregateOps V A) (n : Nat) (iv : Interval) (a : A)
    (lane : FastLane A) :
    (if n % lane.interval == 0 then lane.push iv a
     else lane.update ops (n / lane.interval) iv a).intervals.length =
        lane.intervals.length + 1 ∨
    (if n % lane.interval == 0 then lane.push iv a
     else lane.update ops (n / lane.interval) iv a).intervals.length =
        lane.intervals.length := by
  by_cases h : (n % lane.interval == 0) = true
  · rw [if_pos h]
    exact Or.inl (by simp [FastLane.push])
  · rw [if_neg h]
    exact Or.inr (by simp [FastLane.update])

theorem push_lane_growth (ops : AggregateOps V A) (idx : IntervalIndex V A)
    (iv : Interval) (v : V) :
    ∃ d, d ≤ 1 ∧
      (idx.push ops iv v).fast_lanes.length = d + idx.fast_lanes.length ∧
      ∀ j, j < idx.fast_lanes.length →
        ∃ lane lane', idx.fast_lanes[j]? = some lane ∧
          (idx.push ops iv v).fast_lanes[d + j]? = some lane' ∧
          (lane'.intervals.length = lane.intervals.length + 1 ∨
            lane'.intervals.length = lane.intervals.length) := by
  have hmidlanes : (pushMid ops idx iv v).fast_lanes = idx.fast_lanes.map (fun lane =>
      let aggregate := ops.initial iv v
      if idx.slow_lane.len % lane.interval == 0 then lane.push iv aggregate
      else lane.update ops (idx.slow_lane.len / lane.interval) iv aggregate) := rfl
  have hmid : ∀ j, j < idx.fast_lanes.length →
      ∃ lane lane', idx.fast_lanes[j]? = some lane ∧
        (pushMid ops idx iv v).fast_lanes[j]? = some lane' ∧
        (lane'.intervals.length = lane.intervals.length + 1 ∨
          lane'.intervals.length = lane.intervals.length) := by
    intro j hj
    have hsome : (pushMid ops idx iv v).fast_lanes[j]? =
        some (if idx.slow_lane.len % idx.fast_lanes[j].interval == 0
          then idx.fast_lanes[j].push iv (ops.initial iv v)
          else idx.fast_lanes[j].update ops
            (idx.slow_lane.len / idx.fast_lanes[j].interval) iv (ops.initial iv v)) := by
      rw [hmidlanes, List.getElem?_map, List.getElem?_eq_getElem hj]
      rfl
    refine ⟨_, _, List.getElem?_eq_getElem hj, hsome, ?_⟩
    exact step_lane_length ops idx.slow_lane.len iv (ops.initial iv v) idx.fast_lanes[j]
  rcases push_eq_cases ops idx iv v with hp | hp
  · refine ⟨0, by omega, ?_, ?_⟩
    · rw [hp, hmidlanes]
      simp
    · intro j hj
      rw [hp]
      simpa using hmid j hj
  · rcases rebuild_lanes_cases ops (pushMid ops idx iv v) with hr | ⟨nl, hr⟩
    · refine ⟨0, by omega, ?_, ?_⟩
      · rw [hp, hr, hmidlanes]
        simp
      · intro j hj
        rw [hp, hr]
        simpa using hmid j hj
    · refine ⟨1, by omega, ?_, ?_⟩
      · rw [hp, hr, List.length_cons, hmidlanes]
        simp [Nat.add_comm]
      · intro j hj
        obtain ⟨lane, lane', h1, h2, h3⟩ := hmid j hj
        refine ⟨lane, lane', h1, ?_, h3⟩
        rw [hp, hr, show 1 + j = j + 1 from Nat.add_comm 1 j]
        show (nl :: (pushMid ops idx iv v).fast_lanes)[j + 1]? = some lane'
        rw [List.getElem?_cons_succ]
        exact h2

/-! ### The claims -/

/-- C5: after any sequence of pushes in non-decreasing start order, every
fast-lane block `k` of width `W` has its bounding interval's start equal to
the start of the slow-lane interval at position `k*W` (frozen at creation)
and its end equal to the maximum end over the slow-lane intervals at
positions `[k*W, min ((k+1)*W) N)` (the positions of `chunk`). -/
theorem claim_C5 (V A : Type) (ops : AggregateOps V A) (order : Nat)
    (items : List (Interval × V)) (horder : 1 ≤ order)
    (hsorted : StartSorted (items.map Prod.fst)) :
    ∀ lane ∈ (IntervalIndex.build ops order items).fast_lanes, ∀ k biv,
      lane.intervals[k]? = some biv →
      ∃ first,
        (IntervalIndex.build ops order items).slow_lane.intervals[k * lane.interval]? =
          some first ∧
        biv.start = first.start ∧
        biv.end_ = maxEnd (chunk (IntervalIndex.build ops order items).slow_lane.intervals
          k lane.interval) := by
  intro lane hlane k biv hbiv
  have hwf := wf_build ops horder items
  have hb := hwf.bounds lane hlane
  have hW := hwf.width_pos hlane
  rw [hb, getElem?_blocksSpec] at hbiv
  by_cases hk : k < numBlocks
      (IntervalIndex.build ops order items).slow_lane.intervals.length lane.interval
  · rw [if_pos hk] at hbiv
    simp only [Option.some_inj] at hbiv
    have hkW : k * lane.interval <
        (IntervalIndex.build ops order items).slow_lane.intervals.length :=
      (lt_numBlocks_iff hW).mp hk
    refine ⟨(IntervalIndex.build ops order items).slow_lane.intervals.get
      ⟨k * lane.interval, hkW⟩, ?_, ?_, ?_⟩
    · rw [List.getElem?_eq_getElem hkW]
      simp
    · rw [← hbiv]
      show headStart (chunk (IntervalIndex.build ops order items).slow_lane.intervals
        k lane.interval) = _
      rw [headStart_chunk hW hkW]
    · rw [← hbiv]
      rfl
  · rw [if_neg hk] at hbiv
    cases hbiv

/-- C7: on an index built from pushes in non-decreasing start order, for
every window overlapped by at least one stored interval,
`first_overlap` succeeds and returns the smallest slow-lane index whose
interval overlaps the window. -/
theorem claim_C7 (V A : Type) (ops : AggregateOps V A) (order : Nat)
    (items : List (Interval × V)) (w : Interval) (horder : 1 ≤ order)
    (hsorted : StartSorted (items.map Prod.fst))
    (hex : ∃ (j : Nat) (a : Interval),
      (IntervalIndex.build ops order items).slow_lane.intervals[j]? = some a ∧
        a.overlaps w = true) :
    ∃ i, (IntervalIndex.build ops order items).first_overlap w = some i ∧
      (∃ a, (IntervalIndex.build ops order items).slow_lane.intervals[i]? = some a ∧
        a.overlaps w = true) ∧
      ∀ j a, j < i →
        (IntervalIndex.build ops order items).slow_lane.intervals[j]? = some a →
        a.overlaps w = false := by
  have hwf := wf_build ops horder items
  have hsorted2 : StartSorted (IntervalIndex.build ops order items).slow_lane.intervals := by
    rw [build_slow_intervals]
    exact hsorted
  obtain ⟨j, a, hja, hov⟩ := hex
  have hfo := first_overlap_of_wf hwf hsorted2 hja hov
  have hjlen : j < (IntervalIndex.build ops order items).slow_lane.intervals.length :=
    (List.getElem?_eq_some.mp hja).1
  have hfle : (IntervalIndex.build ops order items).slow_lane.intervals.findIdx
      (fun interval => interval.overlaps w) ≤ j := findIdx_le_of_true hja hov
  have hflt : (IntervalIndex.build ops order items).slow_lane.intervals.findIdx
      (fun interval => interval.overlaps w) <
      (IntervalIndex.build ops order items).slow_lane.intervals.length := by omega
  refine ⟨_, hfo, ⟨_, List.getElem?_eq_getElem hflt, ?_⟩, ?_⟩
  · exact @List.findIdx_getElem Interval (fun interval => interval.overlaps w) _ hflt
  · intro j' a' hj' hja'
    have hf := List.not_of_lt_findIdx hj'
    have hjlen' : j' < (IntervalIndex.build ops order items).slow_lane.intervals.length :=
      (List.getElem?_eq_some.mp hja').1
    rw [List.getElem?_eq_getElem hjlen'] at hja'
    simp only [Option.some_inj] at hja'
    rw [hja'] at hf
    exact hf

/-- C8: on an index into which nothing has been pushed, every query window
yields the neutral aggregate from `aggregate` and an empty list of slices
from `query`, without a panic. -/
theorem claim_C8 (V A : Type) (ops : AggregateOps V A) (order : Nat) (w : Interval) :
    (IntervalIndex.new V A order).aggregate ops w = some ops.empty ∧
    (IntervalIndex.new V A order).queryValues w = some [] := by
  constructor
  · unfold IntervalIndex.aggregate
    rw [query_with_new]
  · unfold IntervalIndex.queryValues IntervalIndex.queryRanges
    rw [query_with_new]
    rfl

/-- C9: on an index built from pushes in non-decreasing start order, for
every window on which the traversal completes, the index ranges accumulated
by `RangeVisitor` (the ranges behind `query`) are nonempty and consecutive
ranges are strictly separated (each range's end is strictly below the next
range's start), so they are in strictly increasing position order, pairwise
disjoint and non-adjacent, and every stored position is yielded at most
once, in insertion order. -/
theorem claim_C9 (V A : Type) (ops : AggregateOps V A) (order : Nat)
    (items : List (Interval × V)) (w : Interval) (out : List (Nat × Nat))
    (horder : 1 ≤ order) (hsorted : StartSorted (items.map Prod.fst))
    (hcomplete : (IntervalIndex.build ops order items).queryRanges w = some out) :
    (∀ r ∈ out, r.1 < r.2) ∧ List.Chain' (fun a b : Nat × Nat => a.2 < b.1) out := by
  have hwf := wf_build ops horder items
  exact queryRanges_chain (fun lane h => hwf.width_pos h) hcomplete

/-- C10: the parallel-array invariant holds after any sequence of pushes
(slow lane: intervals and values have equal length; every fast lane:
intervals and aggregations have equal length), and one more push grows the
slow lane by exactly one entry, keeps the invariant, and grows each
pre-existing fast lane by zero or one block (a rebuild may additionally
insert one new coarsest lane in front, shifting positions by `d ≤ 1`). -/
theorem claim_C10 (V A : Type) (ops : AggregateOps V A) (order : Nat)
    (items : List (Interval × V)) (iv : Interval) (v : V) (horder : 1 ≤ order) :
    ((IntervalIndex.build ops order items).slow_lane.values.length =
      (IntervalIndex.build ops order items).slow_lane.intervals.length) ∧
    (∀ lane ∈ (IntervalIndex.build ops order items).fast_lanes,
      lane.aggregations.length = lane.intervals.length) ∧
    (((IntervalIndex.build ops order items).push ops iv v).slow_lane.intervals.length =
      (IntervalIndex.build ops order items).slow_lane.intervals.length + 1) ∧
    (((IntervalIndex.build ops order items).push ops iv v).slow_lane.values.length =
      (IntervalIndex.build ops order items).slow_lane.values.length + 1) ∧
    (((IntervalIndex.build ops order items).push ops iv v).slow_lane.values.length =
      ((IntervalIndex.build ops order items).push ops iv v).slow_lane.intervals.length) ∧
    (∀ lane ∈ ((IntervalIndex.build ops order items).push ops iv v).fast_lanes,
      lane.aggregations.length = lane.intervals.length) ∧
    ∃ d, d ≤ 1 ∧
      ((IntervalIndex.build ops order items).push ops iv v).fast_lanes.length =
        d + (IntervalIndex.build ops order items).fast_lanes.length ∧
      ∀ j, j < (IntervalIndex.build ops order items).fast_lanes.length →
        ∃ lane lane',
          (IntervalIndex.build ops order items).fast_lanes[j]? = some lane ∧
          ((IntervalIndex.build ops order items).push ops iv v).fast_lanes[d + j]? =
            some lane' ∧
          (lane'.intervals.length = lane.intervals.length + 1 ∨
            lane'.intervals.length = lane.intervals.length) := by
  have hwf := wf_build ops horder items
  have hwf2 := wf_push ops hwf iv v
  refine ⟨hwf.parallel_slow, hwf.parallel_fast, ?_, ?_, hwf2.parallel_slow,
    hwf2.parallel_fast, push_lane_growth ops _ iv v⟩
  · rw [push_slow]
    simp [SlowLane.push]
  · rw [push_slow]
    simp [SlowLane.push]

/-! ### Concrete instances used by the remaining claims and the witnesses -/

/-- The `DefaultStatistics` aggregate over `u64` values, as in the
repository's test and benchmark harnesses. -/
def natOps : AggregateOps Nat DefaultStatistics :=
  defaultStatisticsOps Nat

/-- A small start-sorted push sequence. -/
def c5items : List (Interval × Nat) :=
  [(⟨0, 5⟩, 1), (⟨3, 9⟩, 2), (⟨4, 4⟩, 3)]

/-- The single push of the C1 failing input. -/
def c1items : List (Interval × Nat) :=
  [(⟨0, 0⟩, 1)]

/-- Start-sorted pushes leaving a gap `[4, 9]` between stored intervals. -/
def c2items : List (Interval × Nat) :=
  [(⟨0, 1⟩, 1), (⟨2, 3⟩, 2), (⟨10, 11⟩, 3)]

/-- The spec's concrete scenario: `(id=1,[0,10])`, `(id=2,[5,6])`,
`(id=3,[20,30])`. -/
def c6items : List (Interval × Nat) :=
  [(⟨0, 10⟩, 1), (⟨5, 6⟩, 2), (⟨20, 30⟩, 3)]

/-- 255 starts-sorted pushes. -/
def c3items255 : List (Interval × Nat) :=
  (List.range 255).map (fun k => (⟨k, k⟩, k))

/-- 256 starts-sorted pushes (one more than `c3items255`). -/
def c3items256 : List (Interval × Nat) :=
  (List.range 256).map (fun k => (⟨k, k⟩, k))

/-- A single push for the C10 witness. -/
def c10items : List (Interval × Nat) :=
  [(⟨0, 1⟩, 5)]

/-- C1 (failing input): after the single sorted push `([0,0], 1)` with
`new(2)`, the window `[5,6]` overlaps nothing; the core's localization
offset overshoots the slow lane (`&slow_lane.intervals[2..]` on a length-1
vector, a Rust panic, modelled as `none`), while the oracle returns the
neutral aggregate and an empty result, so the claimed field-for-field
equality fails on this input. -/
theorem claim_C1 :
    (IntervalIndex.build natOps 2 c1items).aggregate natOps ⟨5, 6⟩ = none ∧
    (IntervalIndex.build natOps 2 c1items).queryValues ⟨5, 6⟩ = none ∧
    (BaselineIntervalIndex.build c1items :
      BaselineIntervalIndex Nat DefaultStatistics).aggregate natOps ⟨5, 6⟩ =
      DefaultStatistics.empty ∧
    (BaselineIntervalIndex.build c1items :
      BaselineIntervalIndex Nat DefaultStatistics).query ⟨5, 6⟩ = [] := by
  refine ⟨by decide, by decide, by decide, by decide⟩

/-- C2 (failing input): on the sorted pushes of `c2items` with `new(2)`,
both a window `[5,6]` inside the gap and a window `[20,30]` entirely after
all data make `first_fastlane_overlap` exhaust every lane and multiply the
exhausted offset by `order`, so `first_overlap` slices
`&slow_lane.intervals[4..]` on a length-3 vector — a Rust panic (modelled
as `none`) instead of the claimed empty result and neutral aggregate. -/
theorem claim_C2 :
    (IntervalIndex.build natOps 2 c2items).first_overlap ⟨5, 6⟩ = none ∧
    (IntervalIndex.build natOps 2 c2items).aggregate natOps ⟨5, 6⟩ = none ∧
    (IntervalIndex.build natOps 2 c2items).queryValues ⟨5, 6⟩ = none ∧
    (IntervalIndex.build natOps 2 c2items).first_overlap ⟨20, 30⟩ = none ∧
    (IntervalIndex.build natOps 2 c2items).aggregate natOps ⟨20, 30⟩ = none ∧
    (IntervalIndex.build natOps 2 c2items).queryValues ⟨20, 30⟩ = none := by
  refine ⟨by decide, by decide, by decide, by decide, by decide, by decide⟩

/-- C4 (failing input): `DefaultStatistics::empty()` has `min = 0`, so
merging it into `a = initial([0,5], v)` (whose `min` is 5) sets `a.min` to
`min(0, 5) = 0` — the merge with `empty()` is not neutral on the `min`
field (the other three fields are unchanged), contradicting the claimed
neutrality. -/
theorem claim_C4 :
    (DefaultStatistics.initial ⟨0, 5⟩).min = 5 ∧
    (DefaultStatistics.initial ⟨0, 5⟩).aggregate DefaultStatistics.empty ≠
      DefaultStatistics.initial ⟨0, 5⟩ ∧
    ((DefaultStatistics.initial ⟨0, 5⟩).aggregate DefaultStatistics.empty).min = 0 ∧
    (DefaultStatistics.empty.aggregate (DefaultStatistics.initial ⟨0, 5⟩)).min = 0 ∧
    ((DefaultStatistics.initial ⟨0, 5⟩).aggregate DefaultStatistics.empty).max = 5 ∧
    ((DefaultStatistics.initial ⟨0, 5⟩).aggregate DefaultStatistics.empty).count = 1 ∧
    ((DefaultStatistics.initial ⟨0, 5⟩).aggregate
      DefaultStatistics.empty).total_duration = 5 := by
  refine ⟨by decide, by decide, by decide, by decide, by decide, by decide, by decide⟩

/-- C6: on the spec's scenario (pushes `(1,[0,10])`, `(2,[5,6])`,
`(3,[20,30])` with `new(2)`), the window `[4,7]` does return exactly the
values `1, 2` with aggregate count 2 as claimed, but the window `[15,19]`
(overlapping nothing) drives the localization offset past the slow lane and
Rust panics (`none`) instead of returning the claimed empty result and
count 0. -/
theorem claim_C6 :
    (IntervalIndex.build natOps 2 c6items).queryValues ⟨4, 7⟩ = some [[1, 2]] ∧
    ((IntervalIndex.build natOps 2 c6items).aggregate natOps ⟨4, 7⟩).map
      DefaultStatistics.count = some 2 ∧
    (IntervalIndex.build natOps 2 c6items).aggregate natOps ⟨15, 19⟩ = none ∧
    (IntervalIndex.build natOps 2 c6items).queryValues ⟨15, 19⟩ = none := by
  refine ⟨by decide, by decide, by decide, by decide⟩

set_option maxRecDepth 10000 in
/-- C3 (counterexample): `IntervalIndex::new` takes a single argument and
the number of lanes does change afterwards: with `new(1)`, after 255 pushes
the index still has one fast lane, and the 256th push fills the coarsest
lane to `max_top_level = 256` blocks and inserts a new coarsest lane — the
lane count becomes 2, refuting "no push ever adds a new lane". -/
theorem claim_C3_counterexample :
    (IntervalIndex.build natOps 1 c3items255).fast_lanes.length = 1 ∧
    (IntervalIndex.build natOps 1 c3items256).fast_lanes.length = 2 := by
  constructor
  · decide
  · decide

/-- C3 (amended): `IntervalIndex::new` takes the single argument `order`
and allocates exactly one fast lane, of block width `order` (`order^1`);
the lane count is not fixed afterwards: each push leaves the number of
lanes unchanged or, when it fills the coarsest lane to `max_top_level`
blocks, inserts one new coarsest lane. -/
theorem claim_C3 (V A : Type) (ops : AggregateOps V A) (order : Nat)
    (idx : IntervalIndex V A) (iv : Interval) (v : V) :
    (IntervalIndex.new V A order).fast_lanes.map FastLane.interval = [order] ∧
    ((idx.push ops iv v).fast_lanes.length = idx.fast_lanes.length ∨
      (idx.push ops iv v).fast_lanes.length = idx.fast_lanes.length + 1) := by
  constructor
  · rfl
  · obtain ⟨d, hd, hlen, _⟩ := push_lane_growth ops idx iv v
    omega

/-- C5 witness: the sorted three-push instance with `order = 2`. -/
theorem claim_C5_witness :
    ((1 ≤ 2) ∧ StartSorted (c5items.map Prod.fst)) ∧
    (∀ lane ∈ (IntervalIndex.build natOps 2 c5items).fast_lanes, ∀ k biv,
      lane.intervals[k]? = some biv →
      ∃ first,
        (IntervalIndex.build natOps 2 c5items).slow_lane.intervals[k * lane.interval]? =
          some first ∧
        biv.start = first.start ∧
        biv.end_ = maxEnd (chunk (IntervalIndex.build natOps 2 c5items).slow_lane.intervals
          k lane.interval)) :=
  ⟨⟨by decide, by decide⟩,
    claim_C5 Nat DefaultStatistics natOps 2 c5items (by decide) (by decide)⟩

/-- C7 witness: the window `[4,4]` on the sorted three-push instance. -/
theorem claim_C7_witness :
    ((1 ≤ 2) ∧ StartSorted (c5items.map Prod.fst) ∧
      (∃ (j : Nat) (a : Interval),
        (IntervalIndex.build natOps 2 c5items).slow_lane.intervals[j]? = some a ∧
          a.overlaps ⟨4, 4⟩ = true)) ∧
    (∃ i, (IntervalIndex.build natOps 2 c5items).first_overlap ⟨4, 4⟩ = some i ∧
      (∃ a, (IntervalIndex.build natOps 2 c5items).slow_lane.intervals[i]? = some a ∧
        a.overlaps ⟨4, 4⟩ = true) ∧
      ∀ j a, j < i →
        (IntervalIndex.build natOps 2 c5items).slow_lane.intervals[j]? = some a →
        a.overlaps ⟨4, 4⟩ = false) :=
  ⟨⟨by decide, by decide, ⟨0, ⟨0, 5⟩, by decide, by decide⟩⟩,
    claim_C7 Nat DefaultStatistics natOps 2 c5items ⟨4, 4⟩ (by decide) (by decide)
      ⟨0, ⟨0, 5⟩, by decide, by decide⟩⟩

/-- C9 witness: the spec's scenario and window `[4,7]`, whose traversal
completes with the single coalesced range `[0, 2)`. -/
theorem claim_C9_witness :
    ((1 ≤ 2) ∧ StartSorted (c6items.map Prod.fst) ∧
      (IntervalIndex.build natOps 2 c6items).queryRanges ⟨4, 7⟩ = some [(0, 2)]) ∧
    ((∀ r ∈ [((0 : Nat), (2 : Nat))], r.1 < r.2) ∧
      List.Chain' (fun a b : Nat × Nat => a.2 < b.1) [((0 : Nat), (2 : Nat))]) :=
  ⟨⟨by decide, by decide, by decide⟩,
    claim_C9 Nat DefaultStatistics natOps 2 c6items ⟨4, 7⟩ [(0, 2)] (by decide) (by decide)
      (by decide)⟩

/-- C10 witness: one prior push, then pushing `([2,3], 7)`. -/
theorem claim_C10_witness :
    (1 ≤ 2) ∧
    (((IntervalIndex.build natOps 2 c10items).slow_lane.values.length =
      (IntervalIndex.build natOps 2 c10items).slow_lane.intervals.length) ∧
    (∀ lane ∈ (IntervalIndex.build natOps 2 c10items).fast_lanes,
      lane.aggregations.length = lane.intervals.length) ∧
    (((IntervalIndex.build natOps 2 c10items).push natOps ⟨2, 3⟩ 7).slow_lane.intervals.length =
      (IntervalIndex.build natOps 2 c10items).slow_lane.intervals.length + 1) ∧
    (((IntervalIndex.build natOps 2 c10items).push natOps ⟨2, 3⟩ 7).slow_lane.values.length =
      (IntervalIndex.build natOps 2 c10items).slow_lane.values.length + 1) ∧
    (((IntervalIndex.build natOps 2 c10items).push natOps ⟨2, 3⟩ 7).slow_lane.values.length =
      ((IntervalIndex.build natOps 2 c10items).push natOps ⟨2, 3⟩ 7).slow_lane.intervals.length) ∧
    (∀ lane ∈ ((IntervalIndex.build natOps 2 c10items).push natOps ⟨2, 3⟩ 7).fast_lanes,
      lane.aggregations.length = lane.intervals.length) ∧
    ∃ d, d ≤ 1 ∧
      ((IntervalIndex.build natOps 2 c10items).push natOps ⟨2, 3⟩ 7).fast_lanes.length =
        d + (IntervalIndex.build natOps 2 c10items).fast_lanes.length ∧
      ∀ j, j < (IntervalIndex.build natOps 2 c10items).fast_lanes.length →
        ∃ lane lane',
          (IntervalIndex.build natOps 2 c10items).fast_lanes[j]? = some lane ∧
          ((IntervalIndex.build natOps 2 c10items).push natOps ⟨2, 3⟩ 7).fast_lanes[d + j]? =
            some lane' ∧
          (lane'.intervals.length = lane.intervals.length + 1 ∨
            lane'.intervals.length = lane.intervals.length)) :=
  ⟨by decide,
    claim_C10 Nat DefaultStatistics natOps 2 c10items ⟨2, 3⟩ 7 (by decide)⟩

end IntervalExperiments
